import Mathlib

/-!
# Hex editor: byte buffer with undo / redo history

A shallow embedding of `src/editor.h` and `src/editor.cpp`.

* The buffer is the singly linked chain of `Node`s of the source.  The head
  node `data` is not an element: its `value` field stores the length.
* A `Node*` that points into the chain owned by a buffer is represented by
  the number of `next` links that lead to it from the node the walk started
  at (`none` is `nullptr`).
* `u32`, `u8` and `s32` values are natural numbers / integers; every place
  where the source wraps or narrows is written out (`u32`, `u8`, `s32`).
* Dereferencing `nullptr` and a failed `assert` are explicit outcomes.
* `new Node` leaves the fields of the node indeterminate; the one field the
  source never assigns afterwards, the `next` of the last node that
  `Buffer::Buffer` allocates, is a parameter of the constructor.
* The two self-calling loops `handleEvent` and `handleMainWinEvent` are one
  loop over the values that `getch()` returns; rendering is left out.
-/

/-! ## Machine integers -/

/-- Reduction of a natural number to an `unsigned int` (32 bits). -/
def u32 (x : Nat) : Nat := x % 4294967296

/-- Narrowing of an unsigned value to `u8`. -/
def u8 (x : Nat) : Nat := x % 256

/-- Conversion of an integer to `signed int` (32 bits, two's complement). -/
def s32 (z : Int) : Int := (z + 2147483648) % 4294967296 - 2147483648

/-- The `u32` expression `idx - 1`, which wraps to `0xFFFFFFFF` at `idx = 0`. -/
def u32pred (idx : Nat) : Nat := u32 (idx + 4294967295)

/-! ## Commands (`editor.h`) -/

/-- The enumeration `EDITOR_COMMAND`. -/
inductive EDITOR_COMMAND where
  | REVISE
  | INSERT
  | REMOVE
  deriving DecidableEq, Repr

/-- The record `Command`: `idx` is a `u32`, the two values are `u8`. -/
structure Command where
  type : EDITOR_COMMAND
  idx : Nat
  oldValue : Nat
  newValue : Nat
  deriving DecidableEq, Repr

/-! ## Nodes -/

/-- The `struct Node`: a `u32` value and the owning link `next`
(`none` is `nullptr`). -/
inductive Node where
  | mk (value : Nat) (next : Option Node) : Node

/-- Field `value`. -/
def Node.value : Node → Nat
  | .mk value _ => value

/-- Field `next`. -/
def Node.next : Node → Option Node
  | .mk _ next => next

/-- A non-owning `Node*` into a chain: the number of links from the node the
walk started at, or `none` for `nullptr`. -/
abbrev NodePtr := Option Nat

/-- The method `Node::nth(s32 n)`:
`return (n < 0) ? this : (this->next) ? this->next->nth(n - 1) : nullptr;`. -/
def Node.nth : Node → Int → NodePtr
  | .mk _ next, n =>
    if n < 0 then some 0
    else
      match next with
      | some nx => (nx.nth (n - 1)).map (· + 1)
      | none => none

/-- Read through a pointer: the node `p` links after `this`. -/
def Node.deref : Node → Nat → Option Node
  | nd, 0 => some nd
  | .mk _ none, _ + 1 => none
  | .mk _ (some nx), p + 1 => nx.deref p

/-- Write through a pointer: the chain of `this` in which the node `p` links
after `this` has been overwritten by `new`. -/
def Node.store : Node → Nat → Node → Node
  | _, 0, new => new
  | .mk v none, _ + 1, _ => .mk v none
  | .mk v (some nx), p + 1, new => .mk v (some (nx.store p new))

/-- The values held by the nodes after `this`, in chain order. -/
def Node.elems : Node → List Nat
  | .mk _ none => []
  | .mk _ (some nx) => nx.value :: nx.elems

/-- The node with the given value whose successors hold the given values. -/
def Node.ofList (value : Nat) : List Nat → Node
  | [] => .mk value none
  | x :: xs => .mk value (some (Node.ofList x xs))

/-! ## Buffer -/

/-- The class `Buffer`: `data` is the head node, whose `value` is the length. -/
structure Buffer where
  data : Node

/-- The bytes of the buffer: the values of the nodes after the head. -/
def Buffer.contents (b : Buffer) : List Nat := b.data.elems

/-- The stored length `data->value`. -/
def Buffer.length (b : Buffer) : Nat := b.data.value

/-- The method `Buffer::revise(Node* node, u8 value)`; the result is the
returned `oldValue` and the buffer afterwards, `none` when `node` is null. -/
def Buffer.revise (b : Buffer) (node : NodePtr) (value : Nat) : Option (Nat × Buffer) :=
  match node with
  | none => none
  | some p =>
    match b.data.deref p with
    | none => none
    | some nd =>
      let oldValue := u8 nd.value
      let data := b.data.store p (.mk (value &&& 0xFF) nd.next)
      some (oldValue, ⟨data⟩)

/-- The method `Buffer::insert(Node* prev, u8 value)`: links a new node after
`prev`, then `this->data->value++`. -/
def Buffer.insert (b : Buffer) (prev : NodePtr) (value : Nat) : Option (Nat × Buffer) :=
  match prev with
  | none => none
  | some p =>
    match b.data.deref p with
    | none => none
    | some pn =>
      let temp := Node.mk (value &&& 0xFF) pn.next
      let data := b.data.store p (.mk pn.value (some temp))
      some (0, ⟨.mk (u32 (data.value + 1)) data.next⟩)

/-- The method `Buffer::remove(Node* prev)`: unlinks the node after `prev`,
then `this->data->value--`; `none` when `prev` or `prev->next` is null. -/
def Buffer.remove (b : Buffer) (prev : NodePtr) : Option (Nat × Buffer) :=
  match prev with
  | none => none
  | some p =>
    match b.data.deref p with
    | none => none
    | some pn =>
      match pn.next with
      | none => none
      | some temp =>
        let data := b.data.store p (.mk pn.value temp.next)
        let oldValue := u8 temp.value
        some (oldValue, ⟨.mk (u32 (data.value + 4294967295)) data.next⟩)

/-! ## Editor -/

/-- The private record `Editor::Cursor`. -/
structure Cursor where
  mainWinFixed : Bool
  editPos : Int
  buttonIdx : Int
  value : Nat

/-- The class `Editor`; the top of each stack is the head of its list. -/
structure Editor where
  fileName : String
  cursor : Cursor
  buffer : Buffer
  undoStack : List Command
  redoStack : List Command
  isQuitting : Bool

/-- How a call on an editor ends: it returns, an `assert` fails (the state
is the one at the failed assertion), or it dereferences `nullptr`. -/
inductive Outcome where
  | ok (e : Editor)
  | assertFailed (e : Editor)
  | nullDeref

/-- The method `Editor::revise(u32 idx, u8 value)`. -/
def Editor.revise (e : Editor) (idx value : Nat) : Outcome :=
  if idx < e.buffer.data.value then
    match e.buffer.revise (e.buffer.data.nth (s32 idx)) value with
    | none => .nullDeref
    | some (oldValue, buffer) =>
      .ok { e with
        buffer := buffer
        undoStack := ⟨.REVISE, idx, oldValue, value⟩ :: e.undoStack
        redoStack := [] }
  else .assertFailed e

/-- The method `Editor::insert(u32 idx, u8 value)`. -/
def Editor.insert (e : Editor) (idx value : Nat) : Outcome :=
  if idx ≤ e.buffer.data.value then
    match e.buffer.insert (e.buffer.data.nth (s32 (u32pred idx))) value with
    | none => .nullDeref
    | some (_, buffer) =>
      .ok { e with
        buffer := buffer
        undoStack := ⟨.INSERT, idx, 0, value⟩ :: e.undoStack
        redoStack := [] }
  else .assertFailed e

/-- The method `Editor::remove(u32 idx)`. -/
def Editor.remove (e : Editor) (idx : Nat) : Outcome :=
  if idx < e.buffer.data.value then
    match e.buffer.remove (e.buffer.data.nth (s32 (u32pred idx))) with
    | none => .nullDeref
    | some (oldValue, buffer) =>
      .ok { e with
        buffer := buffer
        undoStack := ⟨.REMOVE, idx, oldValue, 0⟩ :: e.undoStack
        redoStack := [] }
  else .assertFailed e

/-- The body of `Editor::undo(s32 n)`.  The first argument is the undo stack
of `e`; it is passed separately so that the self-call of the source, made
after `undoStack.pop()`, is a structural recursion. -/
def Editor.undoFrom : List Command → Editor → Int → Outcome
  | [], e, _ => .ok e
  | command :: rest, e, n =>
    if n = 0 then .ok e
    else
      let r :=
        match command.type with
        | .REVISE => e.buffer.revise (e.buffer.data.nth (s32 command.idx)) command.oldValue
        | .INSERT => e.buffer.remove (e.buffer.data.nth (s32 (u32pred command.idx)))
        | .REMOVE => e.buffer.insert (e.buffer.data.nth (s32 (u32pred command.idx))) command.oldValue
      match r with
      | none => .nullDeref
      | some (_, buffer) =>
        Editor.undoFrom rest
          { e with
            buffer := buffer
            undoStack := rest
            redoStack := command :: e.redoStack }
          (s32 (n - 1))

/-- The method `Editor::undo(s32 n)`. -/
def Editor.undo (e : Editor) (n : Int) : Outcome :=
  Editor.undoFrom e.undoStack e n

/-- The body of `Editor::redo(s32 n)`; the first argument is the redo stack
of `e` (see `Editor.undoFrom`). -/
def Editor.redoFrom : List Command → Editor → Int → Outcome
  | [], e, _ => .ok e
  | command :: rest, e, n =>
    if n = 0 then .ok e
    else
      let r :=
        match command.type with
        | .REVISE => e.buffer.revise (e.buffer.data.nth (s32 command.idx)) command.newValue
        | .INSERT => e.buffer.insert (e.buffer.data.nth (s32 (u32pred command.idx))) command.newValue
        | .REMOVE => e.buffer.remove (e.buffer.data.nth (s32 (u32pred command.idx)))
      match r with
      | none => .nullDeref
      | some (_, buffer) =>
        Editor.redoFrom rest
          { e with
            buffer := buffer
            undoStack := command :: e.undoStack
            redoStack := rest }
          (s32 (n - 1))

/-- The method `Editor::redo(s32 n)`. -/
def Editor.redo (e : Editor) (n : Int) : Outcome :=
  Editor.redoFrom e.redoStack e n

/-- The call `undo()` with the default argument `n = 1` of `editor.h`. -/
def Editor.undoDefault (e : Editor) : Outcome := e.undo 1

/-- The call `redo()` with the default argument `n = 1` of `editor.h`. -/
def Editor.redoDefault (e : Editor) : Outcome := e.redo 1

/-- An editor over the buffer with stored length `len` and element values
`xs`, with empty stacks and the initial cursor of `editor.h`. -/
def Editor.over (len : Nat) (xs : List Nat) : Editor :=
  { fileName := ""
    cursor := ⟨false, -1, 0, 0⟩
    buffer := ⟨Node.ofList len xs⟩
    undoStack := []
    redoStack := []
    isQuitting := false }


/-! ## Sequences of calls, reachable states -/

/-- Every element node of the buffer holds a byte.  `Buffer::Buffer` fills the
nodes from a `u8` array and every later store is of a `u8`. -/
def Buffer.IsBytes (b : Buffer) : Prop := ∀ x ∈ b.contents, x < 256

/-- A call of one of the three mutating methods of `Editor`. -/
inductive Mutation where
  | revise (idx value : Nat)
  | insert (idx value : Nat)
  | remove (idx : Nat)

/-- The call `m` on the editor `e`. -/
def Editor.apply (e : Editor) : Mutation → Outcome
  | .revise idx value => e.revise idx value
  | .insert idx value => e.insert idx value
  | .remove idx => e.remove idx

/-- The calls `ms` one after the other, as long as they return. -/
def Editor.applyAll : Editor → List Mutation → Outcome
  | e, [] => .ok e
  | e, m :: ms =>
    match e.apply m with
    | .ok e' => Editor.applyAll e' ms
    | .assertFailed e' => .assertFailed e'
    | .nullDeref => .nullDeref

/-- The states an editor can be in.  A freshly loaded editor has empty stacks
and a buffer of bytes whose stored length, a `u32`, is the number of its
elements (what `Editor::Editor` builds when the link of the last node it
allocates is null); every call of `revise`, `insert`, `remove`, `undo` or
`redo` that returns leads to another such state. -/
inductive Editor.Reachable : Editor → Prop where
  | fresh (e : Editor) : e.undoStack = [] → e.redoStack = [] → e.buffer.IsBytes →
      e.buffer.length = e.buffer.contents.length → e.buffer.length < 4294967296 →
      Editor.Reachable e
  | apply (e e' : Editor) (m : Mutation) : Editor.Reachable e → e.apply m = .ok e' →
      Editor.Reachable e'
  | undo (e e' : Editor) (n : Int) : Editor.Reachable e → e.undo n = .ok e' →
      Editor.Reachable e'
  | redo (e e' : Editor) (n : Int) : Editor.Reachable e → e.redo n = .ok e' →
      Editor.Reachable e'

/-! ## The effect of the calls on the contents -/

/-- The pointer `data->nth(n)` of a buffer that holds `len` elements
(`Node.nth_ofList`). -/
def ptrL (len : Nat) (n : Int) : NodePtr :=
  if n < 0 then some 0 else if n.toNat < len then some (n.toNat + 1) else none

/-- The contents after `Buffer::revise` through the pointer `p`
(`Buffer.revise_contents`). -/
def reviseL (p : NodePtr) (w : Nat) (xs : List Nat) : Option (List Nat) :=
  match p with
  | none => none
  | some 0 => some xs
  | some (k + 1) => if k < xs.length then some (xs.set k (w % 256)) else none

/-- The contents after `Buffer::insert` through the pointer `p`
(`Buffer.insert_contents`). -/
def insertL (p : NodePtr) (w : Nat) (xs : List Nat) : Option (List Nat) :=
  match p with
  | none => none
  | some p => if p ≤ xs.length then some (xs.take p ++ (w % 256) :: xs.drop p) else none

/-- The contents after `Buffer::remove` through the pointer `p`
(`Buffer.remove_contents`). -/
def removeL (p : NodePtr) (xs : List Nat) : Option (List Nat) :=
  match p with
  | none => none
  | some p => if p < xs.length then some (xs.eraseIdx p) else none

/-- The `switch` of `Editor::undo` on the buffer `b`. -/
def Command.undoOn (command : Command) (b : Buffer) : Option (Nat × Buffer) :=
  match command.type with
  | .REVISE => b.revise (b.data.nth (s32 command.idx)) command.oldValue
  | .INSERT => b.remove (b.data.nth (s32 (u32pred command.idx)))
  | .REMOVE => b.insert (b.data.nth (s32 (u32pred command.idx))) command.oldValue

/-- The `switch` of `Editor::redo` on the buffer `b`. -/
def Command.redoOn (command : Command) (b : Buffer) : Option (Nat × Buffer) :=
  match command.type with
  | .REVISE => b.revise (b.data.nth (s32 command.idx)) command.newValue
  | .INSERT => b.insert (b.data.nth (s32 (u32pred command.idx))) command.newValue
  | .REMOVE => b.remove (b.data.nth (s32 (u32pred command.idx)))

/-- The contents after the `switch` of `Editor::undo` (`Command.undoOn_contents`). -/
def Command.undoL (command : Command) (xs : List Nat) : Option (List Nat) :=
  match command.type with
  | .REVISE => reviseL (ptrL xs.length (s32 command.idx)) command.oldValue xs
  | .INSERT => removeL (ptrL xs.length (s32 (u32pred command.idx))) xs
  | .REMOVE => insertL (ptrL xs.length (s32 (u32pred command.idx))) command.oldValue xs

/-- The contents after the `switch` of `Editor::redo` (`Command.redoOn_contents`). -/
def Command.redoL (command : Command) (xs : List Nat) : Option (List Nat) :=
  match command.type with
  | .REVISE => reviseL (ptrL xs.length (s32 command.idx)) command.newValue xs
  | .INSERT => insertL (ptrL xs.length (s32 (u32pred command.idx))) command.newValue xs
  | .REMOVE => removeL (ptrL xs.length (s32 (u32pred command.idx))) xs

/-- Undoing the commands `cs`, top first, leads from the contents `ys` to the
contents `xs`, and redoing each of them leads back. -/
def UndoChain : List Command → List Nat → List Nat → Prop
  | [], ys, xs => ys = xs
  | c :: cs, ys, xs => ∃ zs, c.undoL ys = some zs ∧ c.redoL zs = some ys ∧ UndoChain cs zs xs

/-- Redoing the commands `cs`, top first, leads from the contents `xs` to the
contents `ys`, and undoing each of them leads back. -/
def RedoChain : List Command → List Nat → List Nat → Prop
  | [], xs, ys => xs = ys
  | c :: cs, xs, ys => ∃ zs, c.redoL xs = some zs ∧ c.undoL zs = some xs ∧ RedoChain cs zs ys

instance (b : Buffer) : Decidable b.IsBytes := by
  unfold Buffer.IsBytes
  infer_instance

/-! ## The scenario of the specification -/

/-- The editor loaded with the bytes `10 20 30` (hexadecimal). -/
def Editor.scenarioStart : Editor := Editor.over 3 [0x10, 0x20, 0x30]

/-- The calls `revise(1, 0xAA)`, `insert(3, 0xFF)`, `remove(0)`. -/
def scenarioCalls : List Mutation := [.revise 1 0xAA, .insert 3 0xFF, .remove 0]

/-- The editor after the three calls of the scenario. -/
def Editor.scenarioEnd : Editor :=
  { fileName := ""
    cursor := ⟨false, -1, 0, 0⟩
    buffer := ⟨Node.ofList 3 [0xAA, 0x30, 0xFF]⟩
    undoStack := [⟨.REMOVE, 0, 0x10, 0⟩, ⟨.INSERT, 3, 0, 0xFF⟩, ⟨.REVISE, 1, 0x20, 0xAA⟩]
    redoStack := []
    isQuitting := false }

/-- The editor after the three calls of the scenario and `undo(3)`. -/
def Editor.scenarioUndone : Editor :=
  { fileName := ""
    cursor := ⟨false, -1, 0, 0⟩
    buffer := ⟨Node.ofList 3 [0x10, 0x20, 0x30]⟩
    undoStack := []
    redoStack := [⟨.REVISE, 1, 0x20, 0xAA⟩, ⟨.INSERT, 3, 0, 0xFF⟩, ⟨.REMOVE, 0, 0x10, 0⟩]
    isQuitting := false }

/-! ## Construction and saving -/

/-- The loop of `Buffer::Buffer` from index `i` on, with `k` iterations left:
the value it leaves in `prev->next`.  Each `new Node` leaves its `next` field
with an indeterminate value, the next iteration overwrites it, and the one of
the last node (of the head when `len` is 0) is never assigned: `indet` is that
value.  `none` when `*(values + i)` reads past the array. -/
def Buffer.links (values : List Nat) (indet : Option Node) : Nat → Nat → Option (Option Node)
  | _, 0 => some indet
  | i, k + 1 =>
    match values[i]? with
    | none => none
    | some v => (Buffer.links values indet (i + 1) k).map (fun next => some (Node.mk v next))

/-- The constructor `Buffer::Buffer(u8* values, u32 len)`. -/
def Buffer.create (values : List Nat) (len : Nat) (indet : Option Node) : Option Buffer :=
  (Buffer.links values indet 0 len).map (fun next => Buffer.mk (Node.mk len next))

/-- The constructor `Editor::Editor(string fileName)` on a file that holds the
bytes `file`: `fileSize` is `(u32)ftell(file)`. -/
def Editor.create (fileName : String) (file : List Nat) (indet : Option Node) : Option Editor :=
  (Buffer.create file (u32 file.length) indet).map (fun buffer =>
    { fileName := fileName
      cursor := ⟨false, -1, 0, 0⟩
      buffer := buffer
      undoStack := []
      redoStack := []
      isQuitting := false })

/-- The loop `for (head = this; head != nullptr; head = head->next)` of
`Editor::save` with its `fwrite(&head->value, 1, 1, file)`: the bytes written,
one per node, the low byte of `value` (the byte at its address on a
little-endian machine). -/
def Node.written : Node → List Nat
  | .mk v none => [u8 v]
  | .mk v (some nx) => u8 v :: nx.written

/-- The method `Editor::save()`: the bytes the file holds afterwards. -/
def Editor.save (e : Editor) : List Nat :=
  match e.buffer.data.nth 0 with
  | none => []
  | some p =>
    match e.buffer.data.deref p with
    | none => []
    | some head => head.written

/-! ## The keyboard loop -/

/-- A value returned by `getch()`: one of the five key codes of `<ncurses.h>`
the source names, or any other value `ch`, a character code in particular.
The header is not part of the repository; its key codes differ from one
another and from every character code, which is all the `switch` statements
use of them. -/
inductive Key where
  | KEY_LEFT
  | KEY_UP
  | KEY_RIGHT
  | KEY_DOWN
  | KEY_BACKSPACE
  | char (ch : Nat)

/-- Conversion of an `s32` to `u32`. -/
def u32OfS32 (z : Int) : Nat := (z % 4294967296).toNat

/-- Sequencing of two calls: the second runs when the first returns. -/
def Outcome.andThen (o : Outcome) (f : Editor → Outcome) : Outcome :=
  match o with
  | .ok e => f e
  | .assertFailed e => .assertFailed e
  | .nullDeref => .nullDeref

/-- The loop of `Editor::updateMainWin` from the node `head` with counter `i`,
as far as it writes `cursor.value`: the value it ends with. -/
def Node.shown (mainWinFixed : Bool) (editPos : Nat) : Node → Nat → Nat → Nat
  | .mk v next, i, value =>
    let value := if mainWinFixed ∧ editPos = i then v else value
    match next with
    | none => value
    | some nx => nx.shown mainWinFixed editPos (u32 (i + 1)) value

/-- The method `Editor::updateMainWin()`, as far as it changes the editor. -/
def Editor.updateMainWin (e : Editor) : Editor :=
  match e.buffer.data.nth 0 with
  | none => e
  | some p =>
    match e.buffer.data.deref p with
    | none => e
    | some head =>
      { e with
        cursor :=
          { e.cursor with
            value :=
              head.shown e.cursor.mainWinFixed (u32OfS32 e.cursor.editPos) 0 e.cursor.value } }

/-- The call `this->remove(this->cursor.editPos--)`. -/
def Editor.removeAtCursor (e : Editor) : Outcome :=
  Editor.remove { e with cursor := { e.cursor with editPos := s32 (e.cursor.editPos - 1) } }
    (u32OfS32 e.cursor.editPos)

/-- The `switch (u32 ch = getch())` of `Editor::handleMainWinEvent`. -/
def Editor.mainWinSwitch (e : Editor) : Key → Outcome
  | .KEY_LEFT => .ok { e with cursor := { e.cursor with editPos := s32 (e.cursor.editPos - 1) } }
  | .KEY_UP => .ok { e with cursor := { e.cursor with editPos := s32 (e.cursor.editPos - 8) } }
  | .KEY_RIGHT => .ok { e with cursor := { e.cursor with editPos := s32 (e.cursor.editPos + 1) } }
  | .KEY_DOWN => .ok { e with cursor := { e.cursor with editPos := s32 (e.cursor.editPos + 8) } }
  | .KEY_BACKSPACE => e.removeAtCursor
  | .char ch =>
    if ch = 32 then e.insert (u32OfS32 e.cursor.editPos) 0
    else if ch = 8 ∨ ch = 127 then e.removeAtCursor
    else if ch = 10 then .ok { e with cursor := { e.cursor with mainWinFixed := false } }
    else if 48 ≤ ch ∧ ch ≤ 57 then
      e.revise (u32OfS32 e.cursor.editPos) (u8 (u32 (e.cursor.value <<< 4) ||| (ch - 48)))
    else if 97 < ch ∧ ch ≤ 102 then
      e.revise (u32OfS32 e.cursor.editPos) (u8 (u32 (e.cursor.value <<< 4) ||| (ch - 87)))
    else .ok e

/-- The statements of `Editor::handleMainWinEvent` after its `switch`: the two
clamps of `editPos` (`MIN` compares and yields `unsigned`) and the insertion
of a zero byte when `editPos` is the stored length. -/
def Editor.mainWinAdjust (e : Editor) : Outcome :=
  let editPos := max e.cursor.editPos 0
  let editPos := s32 (min (u32OfS32 editPos) e.buffer.data.value)
  let e := { e with cursor := { e.cursor with editPos := editPos } }
  if u32OfS32 editPos = e.buffer.data.value then e.insert e.buffer.data.value 0 else .ok e

/-- One round of `Editor::handleMainWinEvent` in which `getch()` returns `key`
(`mainWinFixed` holds): the windows are updated, then the `switch`, then the
adjustment of the cursor. -/
def Editor.handleMainWinEvent (e : Editor) (key : Key) : Outcome :=
  (e.updateMainWin.mainWinSwitch key).andThen Editor.mainWinAdjust

/-- The `switch (getch())` of `Editor::handleEvent`; `save()` leaves the editor
as it is, and `handleMainWinEvent()` reads the keys that follow. -/
def Editor.buttonSwitch (e : Editor) : Key → Outcome
  | .KEY_LEFT => .ok { e with cursor := { e.cursor with buttonIdx := s32 (e.cursor.buttonIdx - 1) } }
  | .KEY_RIGHT => .ok { e with cursor := { e.cursor with buttonIdx := s32 (e.cursor.buttonIdx + 1) } }
  | .char ch =>
    if ch = 10 then
      if e.cursor.buttonIdx = 0 then e.undoDefault
      else if e.cursor.buttonIdx = 1 then e.redoDefault
      else if e.cursor.buttonIdx = 2 then
        .ok { e with cursor := { e.cursor with mainWinFixed := true } }
      else if e.cursor.buttonIdx = 3 then .ok e
      else if e.cursor.buttonIdx = 4 then .ok { e with isQuitting := true }
      else .ok e
    else .ok e
  | _ => .ok e

/-- The two clamps of `buttonIdx` at the end of `Editor::handleEvent`. -/
def Editor.buttonAdjust (e : Editor) : Editor :=
  { e with cursor := { e.cursor with buttonIdx := min (max e.cursor.buttonIdx 0) 4 } }

/-- The loop of `Editor::handleEvent` on the keys that `getch()` returns one
after the other, until they run out, the editor quits or a call fails.  Each
round updates the windows and then reads a key.  The source nests the loop of
`handleMainWinEvent` in it; that loop reads the keys exactly while
`mainWinFixed` holds, and `buttonIdx` is 2 all the while, so the clamps that
follow its return change nothing. -/
def Editor.handleEvent : List Key → Editor → Outcome
  | [], e => .ok e
  | key :: keys, e =>
    if e.cursor.mainWinFixed then
      (e.handleMainWinEvent key).andThen (Editor.handleEvent keys)
    else if e.isQuitting then .ok e.updateMainWin
    else
      ((e.updateMainWin.buttonSwitch key).andThen (fun e => .ok e.buttonAdjust)).andThen
        (Editor.handleEvent keys)

/-! ## States reached from a given editor, valid lookups -/

/-- The states reached from the editor `e0` by calls of `revise`, `insert`,
`remove`, `undo` and `redo` that return. -/
inductive Editor.ReachableFrom (e0 : Editor) : Editor → Prop where
  | start : Editor.ReachableFrom e0 e0
  | apply (e e' : Editor) (m : Mutation) : Editor.ReachableFrom e0 e → e.apply m = .ok e' →
      Editor.ReachableFrom e0 e'
  | undo (e e' : Editor) (n : Int) : Editor.ReachableFrom e0 e → e.undo n = .ok e' →
      Editor.ReachableFrom e0 e'
  | redo (e e' : Editor) (n : Int) : Editor.ReachableFrom e0 e → e.redo n = .ok e' →
      Editor.ReachableFrom e0 e'

/-- The lookup `data->nth(n)` returns a node, not `nullptr`. -/
def Buffer.HasNode (b : Buffer) (n : Int) : Prop :=
  ∃ p node, b.data.nth n = some p ∧ b.data.deref p = some node

/-- The lookup `data->nth(n)` returns a node that has a successor, the node
`Buffer::remove` unlinks. -/
def Buffer.HasSuccessor (b : Buffer) (n : Int) : Prop :=
  ∃ p node temp, b.data.nth n = some p ∧ b.data.deref p = some node ∧ node.next = some temp

/-! ## Chains as lists -/

theorem Node.mk_value_next : ∀ nd : Node, Node.mk nd.value nd.next = nd
  | .mk _ _ => rfl

theorem Node.ofList_value (v : Nat) (xs : List Nat) : (Node.ofList v xs).value = v := by
  cases xs <;> rfl

theorem Node.ofList_elems (v : Nat) (xs : List Nat) : (Node.ofList v xs).elems = xs := by
  induction xs generalizing v with
  | nil => rfl
  | cons x xs ih => simp [Node.ofList, Node.elems, ih, Node.ofList_value]

theorem Node.ofList_self : ∀ nd : Node, Node.ofList nd.value nd.elems = nd
  | .mk _ none => rfl
  | .mk v (some nx) => by
    have ih := Node.ofList_self nx
    show Node.mk v (some (Node.ofList nx.value nx.elems)) = Node.mk v (some nx)
    rw [ih]

theorem Node.mk_next_ofList (w a : Nat) (ys : List Nat) :
    Node.mk w (Node.ofList a ys).next = Node.ofList w ys := by
  cases ys <;> rfl

theorem Node.nth_ofList (v : Nat) (xs : List Nat) (n : Int) :
    (Node.ofList v xs).nth n =
      if n < 0 then some 0 else if n.toNat < xs.length then some (n.toNat + 1) else none := by
  induction xs generalizing v n with
  | nil =>
    simp only [Node.ofList, Node.nth, List.length_nil, Nat.not_lt_zero, if_false]
  | cons x xs ih =>
    simp only [Node.ofList, Node.nth, ih, List.length_cons]
    by_cases h0 : n < 0
    · simp [h0]
    · by_cases h1 : n - 1 < 0
      · have : n = 0 := by omega
        subst this
        simp
      · have e1 : (n - 1).toNat + 1 = n.toNat := by omega
        simp only [h0, h1, if_false]
        by_cases h2 : (n - 1).toNat < xs.length
        · have : n.toNat < xs.length + 1 := by omega
          rw [if_pos h2, if_pos this, Option.map_some', e1]
        · have : ¬ n.toNat < xs.length + 1 := by omega
          rw [if_neg h2, if_neg this, Option.map_none']

theorem Node.deref_ofList_succ (v : Nat) (xs : List Nat) (k : Nat) :
    (Node.ofList v xs).deref (k + 1) =
      (xs[k]?).map (fun x => Node.ofList x (xs.drop (k + 1))) := by
  induction xs generalizing v k with
  | nil => simp [Node.ofList, Node.deref]
  | cons x xs ih =>
    cases k with
    | zero => simp [Node.ofList, Node.deref]
    | succ k => simp [Node.ofList, Node.deref, ih]

theorem Node.store_ofList_succ (v : Nat) (xs : List Nat) (k : Nat) (new : Node)
    (hk : k < xs.length) :
    (Node.ofList v xs).store (k + 1) new =
      Node.ofList v (xs.take k ++ new.value :: new.elems) := by
  induction xs generalizing v k with
  | nil => simp at hk
  | cons x xs ih =>
    cases k with
    | zero => simp [Node.ofList, Node.store, Node.ofList_self]
    | succ k =>
      have hk' : k < xs.length := by simpa using hk
      simp [Node.ofList, Node.store, ih x k hk']

theorem land_255 (w : Nat) : w &&& 0xFF = w % 256 :=
  Nat.and_pow_two_sub_one_eq_mod w 8

theorem List.take_getElem_cons_drop (xs : List Nat) (k : Nat) (x : Nat) (rest : List Nat)
    (hx : xs[k]? = some x) :
    xs.take k ++ x :: rest = xs.take (k + 1) ++ rest := by
  induction xs generalizing k with
  | nil => simp at hx
  | cons y ys ih =>
    cases k with
    | zero =>
      simp at hx
      simp [hx]
    | succ k =>
      simp at hx
      simp [ih k hx]

theorem List.drop_eq_cons_of_getElem (xs : List Nat) (k : Nat) (x : Nat)
    (hx : xs[k]? = some x) : xs.drop k = x :: xs.drop (k + 1) := by
  induction xs generalizing k with
  | nil => simp at hx
  | cons y ys ih =>
    cases k with
    | zero =>
      simp at hx
      simp [hx]
    | succ k =>
      simp at hx
      simp [ih k hx]

theorem List.set_eq_of_getElem (xs : List Nat) (k : Nat) (x w : Nat)
    (hx : xs[k]? = some x) : xs.set k w = xs.take k ++ w :: xs.drop (k + 1) := by
  induction xs generalizing k with
  | nil => simp at hx
  | cons y ys ih =>
    cases k with
    | zero => simp
    | succ k =>
      simp at hx
      simp [ih k hx]

theorem List.eraseIdx_eq_take_drop (xs : List Nat) (k : Nat) :
    xs.eraseIdx k = xs.take k ++ xs.drop (k + 1) := by
  induction xs generalizing k with
  | nil => simp
  | cons y ys ih =>
    cases k with
    | zero => simp
    | succ k => simp [ih k]

theorem Node.value_mk (v : Nat) (nx : Option Node) : (Node.mk v nx).value = v := rfl

theorem Node.next_mk (v : Nat) (nx : Option Node) : (Node.mk v nx).next = nx := rfl

theorem Node.elems_mk_some (v : Nat) (nx : Node) :
    (Node.mk v (some nx)).elems = nx.value :: nx.elems := rfl

theorem Node.mk_ofList_next (w v : Nat) (xs : List Nat) :
    Node.mk w (some (Node.ofList v xs)) = Node.ofList w (v :: xs) := rfl

theorem Buffer.revise_null (b : Buffer) (w : Nat) : b.revise none w = none := rfl

theorem Buffer.insert_null (b : Buffer) (w : Nat) : b.insert none w = none := rfl

theorem Buffer.remove_null (b : Buffer) : b.remove none = none := rfl

theorem Buffer.revise_head (L : Nat) (xs : List Nat) (w : Nat) :
    (Buffer.mk (Node.ofList L xs)).revise (some 0) w =
      some (u8 L, Buffer.mk (Node.ofList (w % 256) xs)) := by
  simp [Buffer.revise, Node.deref, Node.store, Node.ofList_value, Node.mk_next_ofList, land_255]

theorem Buffer.revise_elem (L : Nat) (xs : List Nat) (k w : Nat) :
    (Buffer.mk (Node.ofList L xs)).revise (some (k + 1)) w =
      (xs[k]?).map (fun x => (u8 x, Buffer.mk (Node.ofList L (xs.set k (w % 256))))) := by
  simp only [Buffer.revise, Node.deref_ofList_succ]
  cases hx : xs[k]? with
  | none => simp
  | some x =>
    have hk : k < xs.length := by
      rcases List.getElem?_eq_some_iff.mp hx with ⟨h, _⟩
      exact h
    simp [Node.store_ofList_succ, hk, Node.ofList_value, Node.mk_next_ofList, land_255,
      Node.ofList_elems, List.set_eq_of_getElem xs k x _ hx]

theorem Buffer.insert_ofList (L : Nat) (xs : List Nat) (p w : Nat) :
    (Buffer.mk (Node.ofList L xs)).insert (some p) w =
      if p ≤ xs.length then
        some (0, Buffer.mk (Node.ofList (u32 (L + 1)) (xs.take p ++ (w % 256) :: xs.drop p)))
      else none := by
  cases p with
  | zero =>
    simp [Buffer.insert, Node.deref, Node.store, Node.ofList_value, Node.mk_next_ofList,
      land_255, Node.value_mk, Node.next_mk, Node.mk_ofList_next]
  | succ k =>
    simp only [Buffer.insert, Node.deref_ofList_succ]
    cases hx : xs[k]? with
    | none =>
      have : ¬ k + 1 ≤ xs.length := by
        have := List.getElem?_eq_none_iff.mp hx
        omega
      simp [this]
    | some x =>
      have hk : k < xs.length := by
        rcases List.getElem?_eq_some_iff.mp hx with ⟨h, _⟩
        exact h
      have hk' : k + 1 ≤ xs.length := hk
      simp only [Option.map_some', Node.store_ofList_succ _ _ _ _ hk, Node.ofList_value,
        Node.mk_next_ofList, land_255, Node.value_mk, Node.elems_mk_some, Node.ofList_elems,
        if_pos hk', List.take_getElem_cons_drop xs k x _ hx]

theorem Buffer.remove_ofList (L : Nat) (xs : List Nat) (p : Nat) :
    (Buffer.mk (Node.ofList L xs)).remove (some p) =
      (xs[p]?).map
        (fun x => (u8 x, Buffer.mk (Node.ofList (u32 (L + 4294967295)) (xs.eraseIdx p)))) := by
  cases p with
  | zero =>
    cases xs with
    | nil => simp [Buffer.remove, Node.deref, Node.ofList, Node.next_mk]
    | cons x xs =>
      simp [Buffer.remove, Node.deref, Node.store, Node.ofList, Node.next_mk, Node.value_mk,
        Node.ofList_value, Node.mk_next_ofList]
  | succ k =>
    simp only [Buffer.remove, Node.deref_ofList_succ]
    cases hx : xs[k]? with
    | none =>
      have : xs[k + 1]? = none := by
        have := List.getElem?_eq_none_iff.mp hx
        exact List.getElem?_eq_none_iff.mpr (by omega)
      simp [this]
    | some x =>
      have hk : k < xs.length := by
        rcases List.getElem?_eq_some_iff.mp hx with ⟨h, _⟩
        exact h
      cases hy : xs[k + 1]? with
      | none =>
        have hd : xs.drop (k + 1) = [] := by
          have := List.getElem?_eq_none_iff.mp hy
          exact List.drop_eq_nil_of_le this
        simp [hd, Node.ofList, Node.next_mk]
      | some y =>
        have hd := List.drop_eq_cons_of_getElem xs (k + 1) y hy
        simp only [Option.map_some', hd, Node.ofList, Node.next_mk, Node.value_mk,
          Node.ofList_value, Node.mk_next_ofList, Node.store_ofList_succ _ _ _ _ hk,
          Node.elems_mk_some, Node.ofList_elems, List.eraseIdx_eq_take_drop,
          ← List.take_getElem_cons_drop xs k x _ hx]

/-! ## Buffer methods on the contents -/

theorem Buffer.eq_ofList (b : Buffer) : b = Buffer.mk (Node.ofList b.length b.contents) := by
  cases b with
  | mk data => simp [Buffer.length, Buffer.contents, Node.ofList_self]

theorem Buffer.contents_ofList (L : Nat) (xs : List Nat) :
    (Buffer.mk (Node.ofList L xs)).contents = xs := Node.ofList_elems L xs

theorem Buffer.length_ofList (L : Nat) (xs : List Nat) :
    (Buffer.mk (Node.ofList L xs)).length = L := Node.ofList_value L xs

theorem Buffer.nth_eq (b : Buffer) (n : Int) : b.data.nth n = ptrL b.contents.length n := by
  rw [Buffer.eq_ofList b]
  simp only [Node.nth_ofList, Buffer.contents_ofList, ptrL]

theorem Buffer.revise_contents (b : Buffer) (p : NodePtr) (w : Nat) :
    (b.revise p w).map (fun r => r.2.contents) = reviseL p w b.contents := by
  rw [Buffer.eq_ofList b]
  generalize b.length = L
  generalize b.contents = xs
  rw [Buffer.contents_ofList]
  match p with
  | none => rfl
  | some 0 => simp [Buffer.revise_head, reviseL, Buffer.contents_ofList]
  | some (k + 1) =>
    simp only [Buffer.revise_elem, reviseL]
    by_cases hk : k < xs.length
    · simp [hk, List.getElem?_eq_getElem, Buffer.contents_ofList]
    · have : xs[k]? = none := List.getElem?_eq_none_iff.mpr (by omega)
      simp [hk, this]

theorem Buffer.insert_contents (b : Buffer) (p : NodePtr) (w : Nat) :
    (b.insert p w).map (fun r => r.2.contents) = insertL p w b.contents := by
  rw [Buffer.eq_ofList b]
  generalize b.length = L
  generalize b.contents = xs
  rw [Buffer.contents_ofList]
  match p with
  | none => rfl
  | some p =>
    simp only [Buffer.insert_ofList, insertL]
    by_cases hp : p ≤ xs.length
    · simp [hp, Buffer.contents_ofList]
    · simp [hp]

theorem Buffer.remove_contents (b : Buffer) (p : NodePtr) :
    (b.remove p).map (fun r => r.2.contents) = removeL p b.contents := by
  rw [Buffer.eq_ofList b]
  generalize b.length = L
  generalize b.contents = xs
  rw [Buffer.contents_ofList]
  match p with
  | none => rfl
  | some p =>
    simp only [Buffer.remove_ofList, removeL]
    by_cases hp : p < xs.length
    · simp [hp, List.getElem?_eq_getElem, Buffer.contents_ofList]
    · have : xs[p]? = none := List.getElem?_eq_none_iff.mpr (by omega)
      simp [hp, this]

theorem Command.undoOn_contents (c : Command) (b : Buffer) :
    (c.undoOn b).map (fun r => r.2.contents) = c.undoL b.contents := by
  unfold Command.undoOn Command.undoL
  cases c.type
  · simp only [Buffer.nth_eq, Buffer.revise_contents]
  · simp only [Buffer.nth_eq, Buffer.remove_contents]
  · simp only [Buffer.nth_eq, Buffer.insert_contents]

theorem Command.redoOn_contents (c : Command) (b : Buffer) :
    (c.redoOn b).map (fun r => r.2.contents) = c.redoL b.contents := by
  unfold Command.redoOn Command.redoL
  cases c.type
  · simp only [Buffer.nth_eq, Buffer.revise_contents]
  · simp only [Buffer.nth_eq, Buffer.insert_contents]
  · simp only [Buffer.nth_eq, Buffer.remove_contents]

/-! ## Inversion of the three mutating methods -/

theorem Editor.revise_ok (e e' : Editor) (idx w : Nat) (h : e.revise idx w = .ok e') :
    idx < e.buffer.length ∧ ∃ old b', e.buffer.revise (e.buffer.data.nth (s32 idx)) w = some (old, b') ∧
      e' = { e with
        buffer := b'
        undoStack := ⟨.REVISE, idx, old, w⟩ :: e.undoStack
        redoStack := [] } := by
  unfold Editor.revise at h
  split at h
  · rename_i hlt
    refine ⟨hlt, ?_⟩
    split at h
    · cases h
    · rename_i old b' heq
      refine ⟨old, b', heq, ?_⟩
      cases h
      rfl
  · cases h

theorem Editor.insert_ok (e e' : Editor) (idx w : Nat) (h : e.insert idx w = .ok e') :
    idx ≤ e.buffer.length ∧ ∃ r b', e.buffer.insert (e.buffer.data.nth (s32 (u32pred idx))) w = some (r, b') ∧
      e' = { e with
        buffer := b'
        undoStack := ⟨.INSERT, idx, 0, w⟩ :: e.undoStack
        redoStack := [] } := by
  unfold Editor.insert at h
  split at h
  · rename_i hle
    refine ⟨hle, ?_⟩
    split at h
    · cases h
    · rename_i r b' heq
      refine ⟨r, b', heq, ?_⟩
      cases h
      rfl
  · cases h

theorem Editor.remove_ok (e e' : Editor) (idx : Nat) (h : e.remove idx = .ok e') :
    idx < e.buffer.length ∧ ∃ old b', e.buffer.remove (e.buffer.data.nth (s32 (u32pred idx))) = some (old, b') ∧
      e' = { e with
        buffer := b'
        undoStack := ⟨.REMOVE, idx, old, 0⟩ :: e.undoStack
        redoStack := [] } := by
  unfold Editor.remove at h
  split at h
  · rename_i hlt
    refine ⟨hlt, ?_⟩
    split at h
    · cases h
    · rename_i old b' heq
      refine ⟨old, b', heq, ?_⟩
      cases h
      rfl
  · cases h

/-! ## Pointers and inverse steps on the contents -/

theorem ptrL_le (len : Nat) (n : Int) (p : Nat) (h : ptrL len n = some p) : p ≤ len := by
  unfold ptrL at h
  split at h
  · cases h; omega
  · split at h
    · cases h; omega
    · cases h

theorem ptrL_stable (len len' : Nat) (n : Int) (p : Nat) (h : ptrL len n = some p)
    (hp : p ≤ len') : ptrL len' n = some p := by
  unfold ptrL at h ⊢
  split at h
  · rename_i h0
    cases h
    simp [h0]
  · rename_i h0
    split at h
    · cases h
      have : n.toNat < len' := by omega
      simp [h0, this]
    · cases h

theorem reviseL_undo (xs : List Nat) (k w x : Nat) (hx : xs[k]? = some x) (hb : x < 256) :
    reviseL (some (k + 1)) (u8 x) (xs.set k (w % 256)) = some xs := by
  have hk : k < xs.length := by
    rcases List.getElem?_eq_some_iff.mp hx with ⟨h, _⟩
    exact h
  have hxe : xs[k] = x := by
    rcases List.getElem?_eq_some_iff.mp hx with ⟨_, h⟩
    exact h
  have h256 : u8 x % 256 = x := by
    unfold u8
    omega
  have hset : xs.set k x = xs := by
    apply List.ext_getElem?
    intro i
    by_cases hi : k = i
    · subst hi
      simp [hx, hk]
    · simp [List.getElem?_set_ne hi]
  simp only [reviseL, List.length_set, if_pos hk, List.set_set, h256, hset]

theorem removeL_insert (xs : List Nat) (p w : Nat) (hp : p ≤ xs.length) :
    removeL (some p) (xs.take p ++ w :: xs.drop p) = some xs := by
  have hlen : p < (xs.take p ++ w :: xs.drop p).length := by
    simp
    omega
  simp only [removeL, if_pos hlen, List.eraseIdx_eq_take_drop]
  have h1 : (xs.take p ++ w :: xs.drop p).take p = xs.take p := by
    rw [List.take_append_of_le_length (by simp [hp])]
    simp
  have h2 : (xs.take p ++ w :: xs.drop p).drop (p + 1) = xs.drop p := by
    have hl : (xs.take p).length = p := by simp [hp]
    rw [List.drop_append_eq_append_drop]
    simp [hl]
  rw [h1, h2, List.take_append_drop]

theorem insertL_remove (xs : List Nat) (p x : Nat) (hx : xs[p]? = some x) (hb : x < 256) :
    insertL (some p) (u8 x) (xs.eraseIdx p) = some xs := by
  have hk : p < xs.length := by
    rcases List.getElem?_eq_some_iff.mp hx with ⟨h, _⟩
    exact h
  have hlen : p ≤ (xs.eraseIdx p).length := by
    rw [List.length_eraseIdx]
    simp [hk]
    omega
  have h256 : u8 x % 256 = x := by
    unfold u8
    omega
  rw [List.eraseIdx_eq_take_drop] at hlen
  simp only [insertL, List.eraseIdx_eq_take_drop, if_pos hlen, h256]
  have h1 : (xs.take p ++ xs.drop (p + 1)).take p = xs.take p := by
    rw [List.take_append_of_le_length (by simp; omega)]
    simp
  have h2 : (xs.take p ++ xs.drop (p + 1)).drop p = xs.drop (p + 1) := by
    have hl : (xs.take p).length = p := by simp; omega
    rw [List.drop_append_eq_append_drop]
    simp [hl]
  rw [h1, h2, ← List.drop_eq_cons_of_getElem xs p x hx, List.take_append_drop]

/-! ## One mutation: what is recorded inverts it -/

theorem Buffer.isBytes_ofList (L : Nat) (xs : List Nat) :
    (Buffer.mk (Node.ofList L xs)).IsBytes ↔ ∀ x ∈ xs, x < 256 := by
  unfold Buffer.IsBytes
  rw [Buffer.contents_ofList]

theorem Editor.revise_step (e e' : Editor) (idx w : Nat) (hb : e.buffer.IsBytes)
    (h : e.revise idx w = .ok e') :
    ∃ c, e'.undoStack = c :: e.undoStack ∧ e'.redoStack = [] ∧
      c.undoL e'.buffer.contents = some e.buffer.contents ∧
      c.redoL e.buffer.contents = some e'.buffer.contents ∧ e'.buffer.IsBytes := by
  obtain ⟨_, old, b', hrev, rfl⟩ := Editor.revise_ok e e' idx w h
  refine ⟨⟨.REVISE, idx, old, w⟩, rfl, rfl, ?_⟩
  show Command.undoL ⟨.REVISE, idx, old, w⟩ b'.contents = some e.buffer.contents ∧
    Command.redoL ⟨.REVISE, idx, old, w⟩ e.buffer.contents = some b'.contents ∧ b'.IsBytes
  rw [Buffer.nth_eq] at hrev
  rw [Buffer.eq_ofList e.buffer] at hrev hb ⊢
  generalize e.buffer.length = L at hrev hb ⊢
  generalize e.buffer.contents = xs at hrev hb ⊢
  rw [Buffer.contents_ofList] at hrev ⊢
  rw [Buffer.isBytes_ofList] at hb
  simp only [Command.undoL, Command.redoL]
  cases hp : ptrL xs.length (s32 idx) with
  | none =>
    rw [hp, Buffer.revise_null] at hrev
    cases hrev
  | some p =>
    rw [hp] at hrev
    cases p with
    | zero =>
      rw [Buffer.revise_head] at hrev
      cases hrev
      rw [Buffer.contents_ofList, hp, Buffer.isBytes_ofList]
      exact ⟨rfl, rfl, hb⟩
    | succ k =>
      rw [Buffer.revise_elem] at hrev
      cases hx : xs[k]? with
      | none =>
        rw [hx] at hrev
        cases hrev
      | some x =>
        rw [hx] at hrev
        cases hrev
        have hk : k < xs.length := by
          rcases List.getElem?_eq_some_iff.mp hx with ⟨h, _⟩
          exact h
        have hxb : x < 256 := hb x (List.getElem?_mem hx)
        rw [Buffer.contents_ofList, List.length_set, hp, Buffer.isBytes_ofList]
        refine ⟨reviseL_undo xs k w x hx hxb, ?_, ?_⟩
        · simp only [reviseL, if_pos hk]
        · intro y hy
          rcases List.mem_or_eq_of_mem_set hy with h1 | h1
          · exact hb y h1
          · rw [h1]
            exact Nat.mod_lt _ (by decide)

theorem Editor.insert_step (e e' : Editor) (idx w : Nat) (hb : e.buffer.IsBytes)
    (h : e.insert idx w = .ok e') :
    ∃ c, e'.undoStack = c :: e.undoStack ∧ e'.redoStack = [] ∧
      c.undoL e'.buffer.contents = some e.buffer.contents ∧
      c.redoL e.buffer.contents = some e'.buffer.contents ∧ e'.buffer.IsBytes := by
  obtain ⟨_, r, b', hins, rfl⟩ := Editor.insert_ok e e' idx w h
  refine ⟨⟨.INSERT, idx, 0, w⟩, rfl, rfl, ?_⟩
  show Command.undoL ⟨.INSERT, idx, 0, w⟩ b'.contents = some e.buffer.contents ∧
    Command.redoL ⟨.INSERT, idx, 0, w⟩ e.buffer.contents = some b'.contents ∧ b'.IsBytes
  rw [Buffer.nth_eq] at hins
  rw [Buffer.eq_ofList e.buffer] at hins hb ⊢
  generalize e.buffer.length = L at hins hb ⊢
  generalize e.buffer.contents = xs at hins hb ⊢
  rw [Buffer.contents_ofList] at hins ⊢
  rw [Buffer.isBytes_ofList] at hb
  simp only [Command.undoL, Command.redoL]
  cases hp : ptrL xs.length (s32 (u32pred idx)) with
  | none =>
    rw [hp, Buffer.insert_null] at hins
    cases hins
  | some p =>
    have hple : p ≤ xs.length := ptrL_le _ _ _ hp
    rw [hp, Buffer.insert_ofList, if_pos hple] at hins
    cases hins
    have hp' : ptrL (xs.take p ++ (w % 256) :: xs.drop p).length (s32 (u32pred idx)) = some p :=
      ptrL_stable _ _ _ _ hp (by simp; omega)
    rw [Buffer.contents_ofList, hp', Buffer.isBytes_ofList]
    refine ⟨removeL_insert xs p _ hple, ?_, ?_⟩
    · simp only [insertL, if_pos hple]
    · intro y hy
      rcases List.mem_append.mp hy with h1 | h1
      · exact hb y (List.mem_of_mem_take h1)
      · rcases List.mem_cons.mp h1 with h2 | h2
        · rw [h2]
          exact Nat.mod_lt _ (by decide)
        · exact hb y (List.mem_of_mem_drop h2)

theorem Editor.remove_step (e e' : Editor) (idx : Nat) (hb : e.buffer.IsBytes)
    (h : e.remove idx = .ok e') :
    ∃ c, e'.undoStack = c :: e.undoStack ∧ e'.redoStack = [] ∧
      c.undoL e'.buffer.contents = some e.buffer.contents ∧
      c.redoL e.buffer.contents = some e'.buffer.contents ∧ e'.buffer.IsBytes := by
  obtain ⟨_, old, b', hrem, rfl⟩ := Editor.remove_ok e e' idx h
  refine ⟨⟨.REMOVE, idx, old, 0⟩, rfl, rfl, ?_⟩
  show Command.undoL ⟨.REMOVE, idx, old, 0⟩ b'.contents = some e.buffer.contents ∧
    Command.redoL ⟨.REMOVE, idx, old, 0⟩ e.buffer.contents = some b'.contents ∧ b'.IsBytes
  rw [Buffer.nth_eq] at hrem
  rw [Buffer.eq_ofList e.buffer] at hrem hb ⊢
  generalize e.buffer.length = L at hrem hb ⊢
  generalize e.buffer.contents = xs at hrem hb ⊢
  rw [Buffer.contents_ofList] at hrem ⊢
  rw [Buffer.isBytes_ofList] at hb
  simp only [Command.undoL, Command.redoL]
  cases hp : ptrL xs.length (s32 (u32pred idx)) with
  | none =>
    rw [hp, Buffer.remove_null] at hrem
    cases hrem
  | some p =>
    rw [hp, Buffer.remove_ofList] at hrem
    cases hx : xs[p]? with
    | none =>
      rw [hx] at hrem
      cases hrem
    | some x =>
      rw [hx] at hrem
      cases hrem
      have hk : p < xs.length := by
        rcases List.getElem?_eq_some_iff.mp hx with ⟨h, _⟩
        exact h
      have hxb : x < 256 := hb x (List.getElem?_mem hx)
      have hp' : ptrL (xs.eraseIdx p).length (s32 (u32pred idx)) = some p :=
        ptrL_stable _ _ _ _ hp (by rw [List.length_eraseIdx]; simp [hk]; omega)
      rw [Buffer.contents_ofList, hp', Buffer.isBytes_ofList]
      refine ⟨insertL_remove xs p x hx hxb, ?_, ?_⟩
      · simp only [removeL, if_pos hk]
      · intro y hy
        exact hb y (List.mem_of_mem_eraseIdx hy)

theorem Editor.apply_step (e e' : Editor) (m : Mutation) (hb : e.buffer.IsBytes)
    (h : e.apply m = .ok e') :
    ∃ c, e'.undoStack = c :: e.undoStack ∧ e'.redoStack = [] ∧
      c.undoL e'.buffer.contents = some e.buffer.contents ∧
      c.redoL e.buffer.contents = some e'.buffer.contents ∧ e'.buffer.IsBytes := by
  cases m with
  | revise idx w => exact Editor.revise_step e e' idx w hb h
  | insert idx w => exact Editor.insert_step e e' idx w hb h
  | remove idx => exact Editor.remove_step e e' idx hb h

/-! ## The loops of `undo` and `redo` -/

theorem s32_pred (n : Int) (h1 : -2147483647 ≤ n) (h2 : n ≤ 2147483648) :
    s32 (n - 1) = n - 1 := by
  unfold s32
  omega

theorem Editor.undoFrom_nil (e : Editor) (n : Int) : Editor.undoFrom [] e n = .ok e := rfl

theorem Editor.redoFrom_nil (e : Editor) (n : Int) : Editor.redoFrom [] e n = .ok e := rfl

theorem Editor.undoFrom_zero (st : List Command) (e : Editor) :
    Editor.undoFrom st e 0 = .ok e := by
  cases st <;> rfl

theorem Editor.redoFrom_zero (st : List Command) (e : Editor) :
    Editor.redoFrom st e 0 = .ok e := by
  cases st <;> rfl

theorem Editor.undoFrom_cons (c : Command) (rest : List Command) (e : Editor) (n : Int)
    (hn : n ≠ 0) :
    Editor.undoFrom (c :: rest) e n =
      match c.undoOn e.buffer with
      | none => .nullDeref
      | some (_, buffer) =>
        Editor.undoFrom rest
          { e with
            buffer := buffer
            undoStack := rest
            redoStack := c :: e.redoStack }
          (s32 (n - 1)) := by
  simp only [Editor.undoFrom, if_neg hn, Command.undoOn]

theorem Editor.redoFrom_cons (c : Command) (rest : List Command) (e : Editor) (n : Int)
    (hn : n ≠ 0) :
    Editor.redoFrom (c :: rest) e n =
      match c.redoOn e.buffer with
      | none => .nullDeref
      | some (_, buffer) =>
        Editor.redoFrom rest
          { e with
            buffer := buffer
            undoStack := c :: e.undoStack
            redoStack := rest }
          (s32 (n - 1)) := by
  simp only [Editor.redoFrom, if_neg hn, Command.redoOn]

theorem Command.undoOn_of_undoL (c : Command) (b : Buffer) (zs : List Nat)
    (h : c.undoL b.contents = some zs) : ∃ r b', c.undoOn b = some (r, b') ∧ b'.contents = zs := by
  have hc := Command.undoOn_contents c b
  rw [h] at hc
  cases hu : c.undoOn b with
  | none =>
    rw [hu] at hc
    cases hc
  | some rb =>
    rw [hu] at hc
    exact ⟨rb.1, rb.2, rfl, by simpa using hc⟩

theorem Command.redoOn_of_redoL (c : Command) (b : Buffer) (zs : List Nat)
    (h : c.redoL b.contents = some zs) : ∃ r b', c.redoOn b = some (r, b') ∧ b'.contents = zs := by
  have hc := Command.redoOn_contents c b
  rw [h] at hc
  cases hu : c.redoOn b with
  | none =>
    rw [hu] at hc
    cases hc
  | some rb =>
    rw [hu] at hc
    exact ⟨rb.1, rb.2, rfl, by simpa using hc⟩

theorem Editor.undoFrom_spec (st : List Command) :
    ∀ (e : Editor) (n : Int) (xs : List Nat), e.undoStack = st → 0 ≤ n → n < 2147483648 →
      UndoChain (st.take n.toNat) e.buffer.contents xs →
      ∃ e1, Editor.undoFrom st e n = .ok e1 ∧ e1.buffer.contents = xs ∧
        e1.undoStack = st.drop n.toNat ∧
        e1.redoStack = (st.take n.toNat).reverse ++ e.redoStack ∧
        e1.fileName = e.fileName ∧ e1.cursor = e.cursor ∧ e1.isQuitting = e.isQuitting := by
  induction st with
  | nil =>
    intro e n xs hst _ _ hc
    refine ⟨e, rfl, ?_, ?_, ?_, rfl, rfl, rfl⟩
    · simpa [UndoChain] using hc
    · simpa using hst
    · simp
  | cons c rest ih =>
    intro e n xs hst h0 h1 hc
    by_cases hn : n = 0
    · subst hn
      refine ⟨e, Editor.undoFrom_zero _ e, ?_, ?_, ?_, rfl, rfl, rfl⟩
      · simpa [UndoChain] using hc
      · simpa using hst
      · simp
    · have hm : n.toNat = (n - 1).toNat + 1 := by omega
      rw [hm, List.take_succ_cons] at hc
      obtain ⟨zs, hu, _, hrest⟩ := hc
      obtain ⟨r, b', hon, hb'⟩ := Command.undoOn_of_undoL c e.buffer zs hu
      rw [Editor.undoFrom_cons c rest e n hn, hon, s32_pred n (by omega) (by omega)]
      obtain ⟨e1, h1', h2', h3', h4', h5', h6', h7'⟩ :=
        ih { e with buffer := b', undoStack := rest, redoStack := c :: e.redoStack } (n - 1) xs
          rfl (by omega) (by omega) (by rw [hb']; exact hrest)
      refine ⟨e1, h1', h2', ?_, ?_, h5', h6', h7'⟩
      · rw [h3', hm, List.drop_succ_cons]
      · rw [h4', hm, List.take_succ_cons, List.reverse_cons, List.append_assoc]
        rfl

theorem Editor.redoFrom_spec (st : List Command) :
    ∀ (e : Editor) (n : Int) (ys : List Nat), e.redoStack = st → 0 ≤ n → n < 2147483648 →
      RedoChain (st.take n.toNat) e.buffer.contents ys →
      ∃ e1, Editor.redoFrom st e n = .ok e1 ∧ e1.buffer.contents = ys ∧
        e1.redoStack = st.drop n.toNat ∧
        e1.undoStack = (st.take n.toNat).reverse ++ e.undoStack ∧
        e1.fileName = e.fileName ∧ e1.cursor = e.cursor ∧ e1.isQuitting = e.isQuitting := by
  induction st with
  | nil =>
    intro e n ys hst _ _ hc
    refine ⟨e, rfl, ?_, ?_, ?_, rfl, rfl, rfl⟩
    · simpa [RedoChain] using hc
    · simpa using hst
    · simp
  | cons c rest ih =>
    intro e n ys hst h0 h1 hc
    by_cases hn : n = 0
    · subst hn
      refine ⟨e, Editor.redoFrom_zero _ e, ?_, ?_, ?_, rfl, rfl, rfl⟩
      · simpa [RedoChain] using hc
      · simpa using hst
      · simp
    · have hm : n.toNat = (n - 1).toNat + 1 := by omega
      rw [hm, List.take_succ_cons] at hc
      obtain ⟨zs, hu, _, hrest⟩ := hc
      obtain ⟨r, b', hon, hb'⟩ := Command.redoOn_of_redoL c e.buffer zs hu
      rw [Editor.redoFrom_cons c rest e n hn, hon, s32_pred n (by omega) (by omega)]
      obtain ⟨e1, h1', h2', h3', h4', h5', h6', h7'⟩ :=
        ih { e with buffer := b', undoStack := c :: e.undoStack, redoStack := rest } (n - 1) ys
          rfl (by omega) (by omega) (by rw [hb']; exact hrest)
      refine ⟨e1, h1', h2', ?_, ?_, h5', h6', h7'⟩
      · rw [h3', hm, List.drop_succ_cons]
      · rw [h4', hm, List.take_succ_cons, List.reverse_cons, List.append_assoc]
        rfl

/-! ## Chains of commands -/

theorem UndoChain_append (as bs : List Command) :
    ∀ ys xs, UndoChain (as ++ bs) ys xs ↔ ∃ zs, UndoChain as ys zs ∧ UndoChain bs zs xs := by
  induction as with
  | nil =>
    intro ys xs
    simp [UndoChain]
  | cons a as ih =>
    intro ys xs
    show (∃ zs, a.undoL ys = some zs ∧ a.redoL zs = some ys ∧ UndoChain (as ++ bs) zs xs) ↔
      ∃ ws, (∃ zs, a.undoL ys = some zs ∧ a.redoL zs = some ys ∧ UndoChain as zs ws) ∧ UndoChain bs ws xs
    constructor
    · rintro ⟨zs, h1, h2, h⟩
      obtain ⟨ws, h3, h4⟩ := (ih zs xs).mp h
      exact ⟨ws, ⟨zs, h1, h2, h3⟩, h4⟩
    · rintro ⟨ws, ⟨zs, h1, h2, h3⟩, h4⟩
      exact ⟨zs, h1, h2, (ih zs xs).mpr ⟨ws, h3, h4⟩⟩

theorem RedoChain_append (as bs : List Command) :
    ∀ xs ys, RedoChain (as ++ bs) xs ys ↔ ∃ zs, RedoChain as xs zs ∧ RedoChain bs zs ys := by
  induction as with
  | nil =>
    intro xs ys
    simp [RedoChain]
  | cons a as ih =>
    intro xs ys
    show (∃ zs, a.redoL xs = some zs ∧ a.undoL zs = some xs ∧ RedoChain (as ++ bs) zs ys) ↔
      ∃ ws, (∃ zs, a.redoL xs = some zs ∧ a.undoL zs = some xs ∧ RedoChain as zs ws) ∧ RedoChain bs ws ys
    constructor
    · rintro ⟨zs, h1, h2, h⟩
      obtain ⟨ws, h3, h4⟩ := (ih zs ys).mp h
      exact ⟨ws, ⟨zs, h1, h2, h3⟩, h4⟩
    · rintro ⟨ws, ⟨zs, h1, h2, h3⟩, h4⟩
      exact ⟨zs, h1, h2, (ih zs ys).mpr ⟨ws, h3, h4⟩⟩

theorem UndoChain_reverse (cs : List Command) :
    ∀ ys xs, UndoChain cs ys xs → RedoChain cs.reverse xs ys := by
  induction cs with
  | nil =>
    intro ys xs h
    simp only [UndoChain] at h
    simp [RedoChain, h]
  | cons c cs ih =>
    intro ys xs h
    obtain ⟨zs, h1, h2, h3⟩ := h
    rw [List.reverse_cons, RedoChain_append]
    exact ⟨zs, ih zs xs h3, ys, h2, h1, rfl⟩

theorem RedoChain_reverse (cs : List Command) :
    ∀ xs ys, RedoChain cs xs ys → UndoChain cs.reverse ys xs := by
  induction cs with
  | nil =>
    intro xs ys h
    simp only [RedoChain] at h
    simp [UndoChain, h]
  | cons c cs ih =>
    intro xs ys h
    obtain ⟨zs, h1, h2, h3⟩ := h
    rw [List.reverse_cons, UndoChain_append]
    exact ⟨zs, ih zs ys h3, xs, h2, h1, rfl⟩

theorem UndoChain_take (st : List Command) (m : Nat) (ys xs : List Nat)
    (h : UndoChain st ys xs) : ∃ zs, UndoChain (st.take m) ys zs := by
  rw [← List.take_append_drop m st, UndoChain_append] at h
  obtain ⟨zs, h1, _⟩ := h
  exact ⟨zs, h1⟩

theorem RedoChain_take (st : List Command) (m : Nat) (xs ys : List Nat)
    (h : RedoChain st xs ys) : ∃ zs, RedoChain (st.take m) xs zs := by
  rw [← List.take_append_drop m st, RedoChain_append] at h
  obtain ⟨zs, h1, _⟩ := h
  exact ⟨zs, h1⟩

/-! ## Sequences of mutations -/

theorem Editor.applyAll_cons_ok (e e' : Editor) (m : Mutation) (ms : List Mutation)
    (h : e.applyAll (m :: ms) = .ok e') :
    ∃ e1, e.apply m = .ok e1 ∧ e1.applyAll ms = .ok e' := by
  unfold Editor.applyAll at h
  split at h
  · rename_i e1 h1
    exact ⟨e1, h1, h⟩
  · cases h
  · cases h

theorem Editor.applyAll_chain (ms : List Mutation) :
    ∀ (e e' : Editor), e.buffer.IsBytes → e.applyAll ms = .ok e' →
      ∃ cs : List Command, cs.length = ms.length ∧ e'.undoStack = cs ++ e.undoStack ∧
        UndoChain cs e'.buffer.contents e.buffer.contents ∧
        (ms ≠ [] → e'.redoStack = []) ∧ e'.buffer.IsBytes := by
  induction ms with
  | nil =>
    intro e e' hb h
    cases h
    exact ⟨[], rfl, rfl, rfl, fun h => absurd rfl h, hb⟩
  | cons m ms ih =>
    intro e e' hb h
    obtain ⟨e1, h1, h2⟩ := Editor.applyAll_cons_ok e e' m ms h
    obtain ⟨c, hc1, hc2, hc3, hc4, hc5⟩ := Editor.apply_step e e1 m hb h1
    obtain ⟨cs, hl, hs, hch, hre, hb'⟩ := ih e1 e' hc5 h2
    refine ⟨cs ++ [c], by simp [hl], by simp [hs, hc1], ?_, ?_, hb'⟩
    · rw [UndoChain_append]
      exact ⟨e1.buffer.contents, hch, e.buffer.contents, hc3, hc4, rfl⟩
    · intro _
      cases ms with
      | nil =>
        cases h2
        exact hc2
      | cons m' ms' => exact hre (by simp)

/-! ## What holds in every reachable state -/

theorem reviseL_bytes (p : NodePtr) (w : Nat) (xs zs : List Nat) (h : reviseL p w xs = some zs)
    (hb : ∀ x ∈ xs, x < 256) : ∀ z ∈ zs, z < 256 := by
  unfold reviseL at h
  split at h
  · cases h
  · cases h
    exact hb
  · split at h
    · cases h
      intro y hy
      rcases List.mem_or_eq_of_mem_set hy with h1 | h1
      · exact hb y h1
      · rw [h1]
        exact Nat.mod_lt _ (by decide)
    · cases h

theorem insertL_bytes (p : NodePtr) (w : Nat) (xs zs : List Nat) (h : insertL p w xs = some zs)
    (hb : ∀ x ∈ xs, x < 256) : ∀ z ∈ zs, z < 256 := by
  unfold insertL at h
  split at h
  · cases h
  · split at h
    · cases h
      intro y hy
      rcases List.mem_append.mp hy with h1 | h1
      · exact hb y (List.mem_of_mem_take h1)
      · rcases List.mem_cons.mp h1 with h2 | h2
        · rw [h2]
          exact Nat.mod_lt _ (by decide)
        · exact hb y (List.mem_of_mem_drop h2)
    · cases h

theorem removeL_bytes (p : NodePtr) (xs zs : List Nat) (h : removeL p xs = some zs)
    (hb : ∀ x ∈ xs, x < 256) : ∀ z ∈ zs, z < 256 := by
  unfold removeL at h
  split at h
  · cases h
  · split at h
    · cases h
      intro y hy
      exact hb y (List.mem_of_mem_eraseIdx hy)
    · cases h

theorem Command.undoL_bytes (c : Command) (xs zs : List Nat) (h : c.undoL xs = some zs)
    (hb : ∀ x ∈ xs, x < 256) : ∀ z ∈ zs, z < 256 := by
  unfold Command.undoL at h
  split at h
  · exact reviseL_bytes _ _ _ _ h hb
  · exact removeL_bytes _ _ _ h hb
  · exact insertL_bytes _ _ _ _ h hb

theorem Command.redoL_bytes (c : Command) (xs zs : List Nat) (h : c.redoL xs = some zs)
    (hb : ∀ x ∈ xs, x < 256) : ∀ z ∈ zs, z < 256 := by
  unfold Command.redoL at h
  split at h
  · exact reviseL_bytes _ _ _ _ h hb
  · exact insertL_bytes _ _ _ _ h hb
  · exact removeL_bytes _ _ _ h hb

theorem Editor.undoFrom_inv (st : List Command) :
    ∀ (e e1 : Editor) (n : Int), e.undoStack = st → e.buffer.IsBytes →
      (∃ xs, UndoChain e.undoStack e.buffer.contents xs) →
      (∃ ys, RedoChain e.redoStack e.buffer.contents ys) →
      Editor.undoFrom st e n = .ok e1 →
      e1.buffer.IsBytes ∧ (∃ xs, UndoChain e1.undoStack e1.buffer.contents xs) ∧
        (∃ ys, RedoChain e1.redoStack e1.buffer.contents ys) := by
  induction st with
  | nil =>
    intro e e1 n _ hb hu hr h
    cases h
    exact ⟨hb, hu, hr⟩
  | cons c rest ih =>
    intro e e1 n hst hb hu hr h
    by_cases hn : n = 0
    · subst hn
      rw [Editor.undoFrom_zero] at h
      cases h
      exact ⟨hb, hu, hr⟩
    · obtain ⟨xs, hu⟩ := hu
      obtain ⟨ys, hr⟩ := hr
      rw [hst] at hu
      obtain ⟨zs, h1, h2, h3⟩ := hu
      obtain ⟨r, b', hon, hb'⟩ := Command.undoOn_of_undoL c e.buffer zs h1
      rw [Editor.undoFrom_cons c rest e n hn, hon] at h
      refine ih _ e1 _ rfl ?_ ?_ ?_ h
      · show ∀ x ∈ b'.contents, x < 256
        rw [hb']
        exact Command.undoL_bytes c _ _ h1 hb
      · exact ⟨xs, by show UndoChain rest b'.contents xs; rw [hb']; exact h3⟩
      · refine ⟨ys, ?_⟩
        show RedoChain (c :: e.redoStack) b'.contents ys
        rw [hb']
        exact ⟨e.buffer.contents, h2, h1, hr⟩

theorem Editor.redoFrom_inv (st : List Command) :
    ∀ (e e1 : Editor) (n : Int), e.redoStack = st → e.buffer.IsBytes →
      (∃ xs, UndoChain e.undoStack e.buffer.contents xs) →
      (∃ ys, RedoChain e.redoStack e.buffer.contents ys) →
      Editor.redoFrom st e n = .ok e1 →
      e1.buffer.IsBytes ∧ (∃ xs, UndoChain e1.undoStack e1.buffer.contents xs) ∧
        (∃ ys, RedoChain e1.redoStack e1.buffer.contents ys) := by
  induction st with
  | nil =>
    intro e e1 n _ hb hu hr h
    cases h
    exact ⟨hb, hu, hr⟩
  | cons c rest ih =>
    intro e e1 n hst hb hu hr h
    by_cases hn : n = 0
    · subst hn
      rw [Editor.redoFrom_zero] at h
      cases h
      exact ⟨hb, hu, hr⟩
    · obtain ⟨xs, hu⟩ := hu
      obtain ⟨ys, hr⟩ := hr
      rw [hst] at hr
      obtain ⟨zs, h1, h2, h3⟩ := hr
      obtain ⟨r, b', hon, hb'⟩ := Command.redoOn_of_redoL c e.buffer zs h1
      rw [Editor.redoFrom_cons c rest e n hn, hon] at h
      refine ih _ e1 _ rfl ?_ ?_ ?_ h
      · show ∀ x ∈ b'.contents, x < 256
        rw [hb']
        exact Command.redoL_bytes c _ _ h1 hb
      · refine ⟨xs, ?_⟩
        show UndoChain (c :: e.undoStack) b'.contents xs
        rw [hb']
        exact ⟨e.buffer.contents, h2, h1, hu⟩
      · exact ⟨ys, by show RedoChain rest b'.contents ys; rw [hb']; exact h3⟩

theorem Editor.Reachable.inv (e : Editor) (h : e.Reachable) :
    e.buffer.IsBytes ∧ (∃ xs, UndoChain e.undoStack e.buffer.contents xs) ∧
      (∃ ys, RedoChain e.redoStack e.buffer.contents ys) := by
  induction h with
  | fresh e hu hr hb _ _ =>
    rw [hu, hr]
    exact ⟨hb, ⟨_, rfl⟩, ⟨_, rfl⟩⟩
  | apply e e' m _ hm ih =>
    obtain ⟨hb, ⟨xs, hu⟩, _⟩ := ih
    obtain ⟨c, hc1, hc2, hc3, hc4, hc5⟩ := Editor.apply_step e e' m hb hm
    rw [hc1, hc2]
    exact ⟨hc5, ⟨xs, e.buffer.contents, hc3, hc4, hu⟩, ⟨_, rfl⟩⟩
  | undo e e' n _ hn ih =>
    exact Editor.undoFrom_inv e.undoStack e e' n rfl ih.1 ih.2.1 ih.2.2 hn
  | redo e e' n _ hn ih =>
    exact Editor.redoFrom_inv e.redoStack e e' n rfl ih.1 ih.2.1 ih.2.2 hn

theorem Editor.Reachable.of_applyAll (ms : List Mutation) :
    ∀ (e e' : Editor), e.Reachable → e.applyAll ms = .ok e' → e'.Reachable := by
  induction ms with
  | nil =>
    intro e e' hr h
    cases h
    exact hr
  | cons m ms ih =>
    intro e e' hr h
    obtain ⟨e1, h1, h2⟩ := Editor.applyAll_cons_ok e e' m ms h
    exact ih e1 e' (Editor.Reachable.apply e e1 m hr h1) h2

theorem Editor.undoFrom_negative (st : List Command) :
    ∀ (e : Editor) (n : Int), n < 0 → (st.length : Int) ≤ n + 2147483648 →
      Editor.undoFrom st e n = Editor.undoFrom st e st.length := by
  induction st with
  | nil =>
    intro e n _ _
    rfl
  | cons c rest ih =>
    intro e n hn hd
    have hd' : (rest.length : Int) + 1 ≤ n + 2147483648 := by simpa using hd
    have h1 : n ≠ 0 := by omega
    have h2 : (((c :: rest).length : Nat) : Int) ≠ 0 := by simp; omega
    rw [Editor.undoFrom_cons c rest e n h1, Editor.undoFrom_cons c rest e _ h2]
    have e1 : s32 (n - 1) = n - 1 := s32_pred n (by omega) (by omega)
    have e2 : s32 ((((c :: rest).length : Nat) : Int) - 1) = rest.length := by
      rw [s32_pred _ (by simp; omega) (by simp; omega)]
      simp
    rw [e1, e2]
    cases c.undoOn e.buffer with
    | none => rfl
    | some rb => exact ih _ (n - 1) (by omega) (by omega)

theorem Editor.redoFrom_negative (st : List Command) :
    ∀ (e : Editor) (n : Int), n < 0 → (st.length : Int) ≤ n + 2147483648 →
      Editor.redoFrom st e n = Editor.redoFrom st e st.length := by
  induction st with
  | nil =>
    intro e n _ _
    rfl
  | cons c rest ih =>
    intro e n hn hd
    have hd' : (rest.length : Int) + 1 ≤ n + 2147483648 := by simpa using hd
    have h1 : n ≠ 0 := by omega
    have h2 : (((c :: rest).length : Nat) : Int) ≠ 0 := by simp; omega
    rw [Editor.redoFrom_cons c rest e n h1, Editor.redoFrom_cons c rest e _ h2]
    have e1 : s32 (n - 1) = n - 1 := s32_pred n (by omega) (by omega)
    have e2 : s32 ((((c :: rest).length : Nat) : Int) - 1) = rest.length := by
      rw [s32_pred _ (by simp; omega) (by simp; omega)]
      simp
    rw [e1, e2]
    cases c.redoOn e.buffer with
    | none => rfl
    | some rb => exact ih _ (n - 1) (by omega) (by omega)

/-! ## The lookups `nth(idx)` and `nth(idx - 1)` -/

theorem ptrL_neg (len : Nat) (n : Int) (h : n < 0) : ptrL len n = some 0 := by
  unfold ptrL
  rw [if_pos h]

theorem ptrL_of_lt (len idx : Nat) (h : idx < len) (h31 : idx < 2147483648) :
    ptrL len (s32 idx) = some (idx + 1) := by
  have e : s32 idx = idx := by
    unfold s32
    omega
  unfold ptrL
  rw [e, if_neg (by omega), Int.toNat_ofNat, if_pos h]

theorem ptrL_pred_of_le (len idx : Nat) (h : idx ≤ len) (h31 : idx ≤ 2147483648) :
    ptrL len (s32 (u32pred idx)) = some idx := by
  rcases Nat.eq_zero_or_pos idx with h0 | h0
  · subst h0
    exact ptrL_neg len _ (by unfold s32 u32pred u32; omega)
  · have e1 : u32pred idx = idx - 1 := by
      unfold u32pred u32
      omega
    have e2 : s32 ((idx - 1 : Nat) : Int) = ((idx - 1 : Nat) : Int) := by
      unfold s32
      omega
    unfold ptrL
    have e3 : idx - 1 + 1 = idx := by omega
    rw [e1, e2, if_neg (by omega), Int.toNat_ofNat, if_pos (by omega), e3]

theorem ptrL_pred_valid (len idx : Nat) (h : idx ≤ len) :
    ∃ p, ptrL len (s32 (u32pred idx)) = some p ∧ p ≤ idx ∧ (p = 0 ∨ 0 < idx) := by
  by_cases hn : s32 (u32pred idx) < 0
  · exact ⟨0, ptrL_neg len _ hn, Nat.zero_le _, Or.inl rfl⟩
  · have hb : (s32 (u32pred idx)).toNat + 1 ≤ idx ∧ 0 < idx := by
      unfold s32 u32pred u32 at hn ⊢
      omega
    refine ⟨(s32 (u32pred idx)).toNat + 1, ?_, hb.1, Or.inr hb.2⟩
    unfold ptrL
    rw [if_neg hn, if_pos (by omega)]

/-! ## The buffer methods through a pointer, on any buffer -/

theorem Buffer.insert_some (b : Buffer) (p v : Nat) (hp : p ≤ b.contents.length) :
    b.insert (some p) v =
      some (0, Buffer.mk (Node.ofList (u32 (b.length + 1))
        (b.contents.take p ++ (v % 256) :: b.contents.drop p))) := by
  have h := Buffer.insert_ofList b.length b.contents p v
  rw [← Buffer.eq_ofList b, if_pos hp] at h
  exact h

theorem Buffer.remove_some (b : Buffer) (p x : Nat) (hx : b.contents[p]? = some x) :
    b.remove (some p) =
      some (u8 x, Buffer.mk (Node.ofList (u32 (b.length + 4294967295)) (b.contents.eraseIdx p))) := by
  have h := Buffer.remove_ofList b.length b.contents p
  rw [← Buffer.eq_ofList b, hx] at h
  exact h

theorem Buffer.revise_some_zero (b : Buffer) (v : Nat) :
    b.revise (some 0) v = some (u8 b.length, Buffer.mk (Node.ofList (v % 256) b.contents)) := by
  have h := Buffer.revise_head b.length b.contents v
  rw [← Buffer.eq_ofList b] at h
  exact h

theorem Buffer.revise_some_succ (b : Buffer) (k v x : Nat) (hx : b.contents[k]? = some x) :
    b.revise (some (k + 1)) v =
      some (u8 x, Buffer.mk (Node.ofList b.length (b.contents.set k (v % 256)))) := by
  have h := Buffer.revise_elem b.length b.contents k v
  rw [← Buffer.eq_ofList b, hx] at h
  exact h

/-! ## The three mutating methods, given the pointer that the lookup yields -/

theorem Editor.insert_eq (e : Editor) (idx v p : Nat) (ha : idx ≤ e.buffer.length)
    (hp : ptrL e.buffer.contents.length (s32 (u32pred idx)) = some p) :
    e.insert idx v = .ok
      { e with
        buffer := Buffer.mk (Node.ofList (u32 (e.buffer.length + 1))
          (e.buffer.contents.take p ++ (v % 256) :: e.buffer.contents.drop p))
        undoStack := ⟨.INSERT, idx, 0, v⟩ :: e.undoStack
        redoStack := [] } := by
  unfold Editor.insert
  rw [if_pos (show idx ≤ e.buffer.data.value from ha), Buffer.nth_eq, hp,
    Buffer.insert_some _ _ _ (ptrL_le _ _ _ hp)]

theorem Editor.remove_eq (e : Editor) (idx p x : Nat) (ha : idx < e.buffer.length)
    (hp : ptrL e.buffer.contents.length (s32 (u32pred idx)) = some p)
    (hx : e.buffer.contents[p]? = some x) :
    e.remove idx = .ok
      { e with
        buffer := Buffer.mk (Node.ofList (u32 (e.buffer.length + 4294967295))
          (e.buffer.contents.eraseIdx p))
        undoStack := ⟨.REMOVE, idx, u8 x, 0⟩ :: e.undoStack
        redoStack := [] } := by
  unfold Editor.remove
  rw [if_pos (show idx < e.buffer.data.value from ha), Buffer.nth_eq, hp,
    Buffer.remove_some _ _ _ hx]

theorem Editor.revise_eq (e : Editor) (idx v k x : Nat) (ha : idx < e.buffer.length)
    (hp : ptrL e.buffer.contents.length (s32 idx) = some (k + 1))
    (hx : e.buffer.contents[k]? = some x) :
    e.revise idx v = .ok
      { e with
        buffer := Buffer.mk (Node.ofList e.buffer.length (e.buffer.contents.set k (v % 256)))
        undoStack := ⟨.REVISE, idx, u8 x, v⟩ :: e.undoStack
        redoStack := [] } := by
  unfold Editor.revise
  rw [if_pos (show idx < e.buffer.data.value from ha), Buffer.nth_eq, hp,
    Buffer.revise_some_succ _ _ _ _ hx]

theorem Editor.revise_eq_head (e : Editor) (idx v : Nat) (ha : idx < e.buffer.length)
    (hp : ptrL e.buffer.contents.length (s32 idx) = some 0) :
    e.revise idx v = .ok
      { e with
        buffer := Buffer.mk (Node.ofList (v % 256) e.buffer.contents)
        undoStack := ⟨.REVISE, idx, u8 e.buffer.length, v⟩ :: e.undoStack
        redoStack := [] } := by
  unfold Editor.revise
  rw [if_pos (show idx < e.buffer.data.value from ha), Buffer.nth_eq, hp,
    Buffer.revise_some_zero]

/-! ## The three mutating methods where the lookup finds the indexed node -/

theorem Editor.insert_within_s32 (e : Editor) (idx v : Nat)
    (hlen : e.buffer.length = e.buffer.contents.length) (hidx : idx ≤ e.buffer.contents.length)
    (h31 : idx ≤ 2147483648) :
    ∃ e', e.insert idx v = .ok e' ∧
      e'.buffer.contents =
        e.buffer.contents.take idx ++ [v % 256] ++ e.buffer.contents.drop idx ∧
      e'.buffer.length = u32 (e.buffer.length + 1) ∧
      e'.undoStack = ⟨.INSERT, idx, 0, v⟩ :: e.undoStack ∧ e'.redoStack = [] := by
  refine ⟨_, Editor.insert_eq e idx v idx (by omega) (ptrL_pred_of_le _ _ hidx h31),
    ?_, ?_, rfl, rfl⟩
  · show (Buffer.mk _).contents = _
    rw [Buffer.contents_ofList]
    simp
  · show (Buffer.mk _).length = _
    rw [Buffer.length_ofList]

theorem Editor.remove_within_s32 (e : Editor) (idx x : Nat)
    (hlen : e.buffer.length = e.buffer.contents.length) (hx : e.buffer.contents[idx]? = some x)
    (h31 : idx ≤ 2147483648) :
    ∃ e', e.remove idx = .ok e' ∧
      e'.buffer.contents = e.buffer.contents.take idx ++ e.buffer.contents.drop (idx + 1) ∧
      e'.buffer.length = u32 (e.buffer.length + 4294967295) ∧
      e'.undoStack = ⟨.REMOVE, idx, u8 x, 0⟩ :: e.undoStack ∧ e'.redoStack = [] := by
  have hidx : idx < e.buffer.contents.length := by
    rcases List.getElem?_eq_some_iff.mp hx with ⟨h, _⟩
    exact h
  refine ⟨_, Editor.remove_eq e idx idx x (by omega)
    (ptrL_pred_of_le _ _ (Nat.le_of_lt hidx) h31) hx, ?_, ?_, rfl, rfl⟩
  · show (Buffer.mk _).contents = _
    rw [Buffer.contents_ofList, List.eraseIdx_eq_take_drop]
  · show (Buffer.mk _).length = _
    rw [Buffer.length_ofList]

theorem Editor.revise_within_s32 (e : Editor) (idx v x : Nat)
    (hlen : e.buffer.length = e.buffer.contents.length) (hx : e.buffer.contents[idx]? = some x)
    (h31 : idx < 2147483648) :
    ∃ e', e.revise idx v = .ok e' ∧
      e'.buffer.contents = e.buffer.contents.set idx (v % 256) ∧
      e'.buffer.length = e.buffer.length ∧
      e'.undoStack = ⟨.REVISE, idx, u8 x, v⟩ :: e.undoStack ∧ e'.redoStack = [] := by
  have hidx : idx < e.buffer.contents.length := by
    rcases List.getElem?_eq_some_iff.mp hx with ⟨h, _⟩
    exact h
  refine ⟨_, Editor.revise_eq e idx v idx x (by omega) (ptrL_of_lt _ _ hidx h31) hx,
    ?_, ?_, rfl, rfl⟩
  · show (Buffer.mk _).contents = _
    rw [Buffer.contents_ofList]
  · show (Buffer.mk _).length = _
    rw [Buffer.length_ofList]

/-! ## The three mutating methods where the lookup stops at the head -/

theorem Editor.over_length (L : Nat) (xs : List Nat) : (Editor.over L xs).buffer.length = L :=
  Buffer.length_ofList L xs

theorem Editor.over_contents (L : Nat) (xs : List Nat) :
    (Editor.over L xs).buffer.contents = xs :=
  Buffer.contents_ofList L xs

theorem Editor.insert_at_head (e : Editor) (idx v : Nat) (ha : idx ≤ e.buffer.length)
    (hn : s32 (u32pred idx) < 0) :
    ∃ e', e.insert idx v = .ok e' ∧ e'.buffer.contents = (v % 256) :: e.buffer.contents ∧
      e'.buffer.length = u32 (e.buffer.length + 1) ∧
      e'.undoStack = ⟨.INSERT, idx, 0, v⟩ :: e.undoStack := by
  refine ⟨_, Editor.insert_eq e idx v 0 ha (ptrL_neg _ _ hn), ?_, ?_, rfl⟩
  · show (Buffer.mk _).contents = _
    rw [Buffer.contents_ofList, List.take_zero, List.drop_zero, List.nil_append]
  · show (Buffer.mk _).length = _
    rw [Buffer.length_ofList]

theorem Editor.remove_at_head (e : Editor) (idx x : Nat) (ha : idx < e.buffer.length)
    (hn : s32 (u32pred idx) < 0) (hx : e.buffer.contents[0]? = some x) :
    ∃ e', e.remove idx = .ok e' ∧ e'.buffer.contents = e.buffer.contents.eraseIdx 0 ∧
      e'.buffer.length = u32 (e.buffer.length + 4294967295) ∧
      e'.undoStack = ⟨.REMOVE, idx, u8 x, 0⟩ :: e.undoStack := by
  refine ⟨_, Editor.remove_eq e idx 0 x ha (ptrL_neg _ _ hn) hx, ?_, ?_, rfl⟩
  · show (Buffer.mk _).contents = _
    rw [Buffer.contents_ofList]
  · show (Buffer.mk _).length = _
    rw [Buffer.length_ofList]

theorem Editor.revise_at_head (e : Editor) (idx v : Nat) (ha : idx < e.buffer.length)
    (hn : s32 idx < 0) :
    ∃ e', e.revise idx v = .ok e' ∧ e'.buffer.contents = e.buffer.contents ∧
      e'.buffer.length = v % 256 ∧
      e'.undoStack = ⟨.REVISE, idx, u8 e.buffer.length, v⟩ :: e.undoStack := by
  refine ⟨_, Editor.revise_eq_head e idx v ha (ptrL_neg _ _ hn), ?_, ?_, rfl⟩
  · show (Buffer.mk _).contents = _
    rw [Buffer.contents_ofList]
  · show (Buffer.mk _).length = _
    rw [Buffer.length_ofList]

/-! ## Inserting and erasing at one position -/

theorem List.getElem?_insert_self (xs : List Nat) (p w : Nat) (hp : p ≤ xs.length) :
    (xs.take p ++ w :: xs.drop p)[p]? = some w := by
  have hl : (xs.take p).length = p := by simp [hp]
  rw [List.getElem?_append_right (by omega), hl, Nat.sub_self, List.getElem?_cons_zero]

theorem List.eraseIdx_insert_self (xs : List Nat) (p w : Nat) (hp : p ≤ xs.length) :
    (xs.take p ++ w :: xs.drop p).eraseIdx p = xs := by
  have h := removeL_insert xs p w hp
  have hlt : p < (xs.take p ++ w :: xs.drop p).length := by
    simp
    omega
  simp only [removeL, if_pos hlt] at h
  exact Option.some.inj h

theorem List.insert_eraseIdx_self (xs : List Nat) (p x : Nat) (hx : xs[p]? = some x) :
    (xs.eraseIdx p).take p ++ x :: (xs.eraseIdx p).drop p = xs := by
  have hk : p < xs.length := by
    rcases List.getElem?_eq_some_iff.mp hx with ⟨h, _⟩
    exact h
  rw [List.eraseIdx_eq_take_drop]
  have h1 : (xs.take p ++ xs.drop (p + 1)).take p = xs.take p := by
    rw [List.take_append_of_le_length (by simp; omega)]
    simp
  have h2 : (xs.take p ++ xs.drop (p + 1)).drop p = xs.drop (p + 1) := by
    have hl : (xs.take p).length = p := by simp; omega
    rw [List.drop_append_eq_append_drop]
    simp [hl]
  rw [h1, h2, ← List.drop_eq_cons_of_getElem xs p x hx, List.take_append_drop]

/-! ## Round trips through the methods of `Editor` -/

theorem Editor.insert_remove_calls (e : Editor) (idx v : Nat) (hs : idx ≤ e.buffer.length)
    (hc : idx ≤ e.buffer.contents.length) (hw : e.buffer.length + 1 < 4294967296) :
    ∃ e1 e2, e.insert idx v = .ok e1 ∧ e1.remove idx = .ok e2 ∧ e2.buffer = e.buffer ∧
      e2.undoStack = ⟨.REMOVE, idx, v % 256, 0⟩ :: ⟨.INSERT, idx, 0, v⟩ :: e.undoStack := by
  obtain ⟨p, hp, _, _⟩ := ptrL_pred_valid e.buffer.contents.length idx hc
  have hple : p ≤ e.buffer.contents.length := ptrL_le _ _ _ hp
  obtain ⟨e1, h1, hb1, hu1⟩ : ∃ e1, e.insert idx v = .ok e1 ∧
      e1.buffer = Buffer.mk (Node.ofList (u32 (e.buffer.length + 1))
        (e.buffer.contents.take p ++ (v % 256) :: e.buffer.contents.drop p)) ∧
      e1.undoStack = ⟨.INSERT, idx, 0, v⟩ :: e.undoStack :=
    ⟨_, Editor.insert_eq e idx v p hs hp, rfl, rfl⟩
  have hlen1 : e1.buffer.length = u32 (e.buffer.length + 1) := by
    rw [hb1, Buffer.length_ofList]
  have hcon1 : e1.buffer.contents =
      e.buffer.contents.take p ++ (v % 256) :: e.buffer.contents.drop p := by
    rw [hb1, Buffer.contents_ofList]
  have h2 := Editor.remove_eq e1 idx p (v % 256)
    (by rw [hlen1]; unfold u32; omega)
    (by rw [hcon1]; exact ptrL_stable _ _ _ _ hp (by simp; omega))
    (by rw [hcon1]; exact List.getElem?_insert_self _ _ _ hple)
  refine ⟨e1, _, h1, h2, ?_, ?_⟩
  · show Buffer.mk (Node.ofList (u32 (e1.buffer.length + 4294967295))
      (e1.buffer.contents.eraseIdx p)) = e.buffer
    have hlen : u32 (u32 (e.buffer.length + 1) + 4294967295) = e.buffer.length := by
      unfold u32
      omega
    rw [hcon1, hlen1, hlen, List.eraseIdx_insert_self _ _ _ hple, ← Buffer.eq_ofList e.buffer]
  · show _ :: e1.undoStack = _
    have hu8 : u8 (v % 256) = v % 256 := by
      unfold u8
      omega
    rw [hu8, hu1]

theorem Editor.remove_insert_calls (e : Editor) (idx : Nat) (hs : idx < e.buffer.length)
    (hc : idx < e.buffer.contents.length) (hw : e.buffer.length < 4294967296)
    (hb : e.buffer.IsBytes) :
    ∃ old e1 e2, e.remove idx = .ok e1 ∧ e1.insert idx old = .ok e2 ∧ e2.buffer = e.buffer ∧
      e2.undoStack = ⟨.INSERT, idx, 0, old⟩ :: ⟨.REMOVE, idx, old, 0⟩ :: e.undoStack := by
  obtain ⟨p, hp, hpi, _⟩ := ptrL_pred_valid e.buffer.contents.length idx (Nat.le_of_lt hc)
  have hplt : p < e.buffer.contents.length := by omega
  have hx : e.buffer.contents[p]? = some e.buffer.contents[p] := List.getElem?_eq_getElem hplt
  have hxb : e.buffer.contents[p] < 256 := hb _ (List.getElem?_mem hx)
  have hle : p ≤ (e.buffer.contents.eraseIdx p).length := by
    rw [List.length_eraseIdx]
    simp [hplt]
    omega
  obtain ⟨e1, h1, hb1, hu1⟩ : ∃ e1, e.remove idx = .ok e1 ∧
      e1.buffer = Buffer.mk (Node.ofList (u32 (e.buffer.length + 4294967295))
        (e.buffer.contents.eraseIdx p)) ∧
      e1.undoStack = ⟨.REMOVE, idx, u8 e.buffer.contents[p], 0⟩ :: e.undoStack :=
    ⟨_, Editor.remove_eq e idx p _ hs hp hx, rfl, rfl⟩
  have hlen1 : e1.buffer.length = u32 (e.buffer.length + 4294967295) := by
    rw [hb1, Buffer.length_ofList]
  have hcon1 : e1.buffer.contents = e.buffer.contents.eraseIdx p := by
    rw [hb1, Buffer.contents_ofList]
  have h2 := Editor.insert_eq e1 idx (u8 e.buffer.contents[p]) p
    (by rw [hlen1]; unfold u32; omega)
    (by rw [hcon1]; exact ptrL_stable _ _ _ _ hp hle)
  refine ⟨u8 e.buffer.contents[p], e1, _, h1, h2, ?_, ?_⟩
  · show Buffer.mk (Node.ofList (u32 (e1.buffer.length + 1))
      (e1.buffer.contents.take p ++ (u8 e.buffer.contents[p] % 256) ::
        e1.buffer.contents.drop p)) = e.buffer
    have hlen : u32 (u32 (e.buffer.length + 4294967295) + 1) = e.buffer.length := by
      unfold u32
      omega
    have hu8 : u8 e.buffer.contents[p] % 256 = e.buffer.contents[p] := by
      unfold u8
      omega
    rw [hcon1, hlen1, hlen, hu8, List.insert_eraseIdx_self _ _ _ hx,
      ← Buffer.eq_ofList e.buffer]
  · show _ :: e1.undoStack = _
    rw [hu1]

/-! ## `undo` and `redo` return, whatever `n` -/

theorem Editor.undoFrom_total (st : List Command) :
    ∀ (e : Editor) (n : Int) (xs : List Nat), UndoChain st e.buffer.contents xs →
      ∃ e1, Editor.undoFrom st e n = .ok e1 := by
  induction st with
  | nil =>
    intro e n xs _
    exact ⟨e, rfl⟩
  | cons c rest ih =>
    intro e n xs hc
    by_cases hn : n = 0
    · subst hn
      exact ⟨e, Editor.undoFrom_zero _ e⟩
    · obtain ⟨zs, h1, _, h3⟩ := hc
      obtain ⟨r, b', hon, hb'⟩ := Command.undoOn_of_undoL c e.buffer zs h1
      rw [Editor.undoFrom_cons c rest e n hn, hon]
      exact ih _ _ xs (by show UndoChain rest b'.contents xs; rw [hb']; exact h3)

theorem Editor.redoFrom_total (st : List Command) :
    ∀ (e : Editor) (n : Int) (ys : List Nat), RedoChain st e.buffer.contents ys →
      ∃ e1, Editor.redoFrom st e n = .ok e1 := by
  induction st with
  | nil =>
    intro e n ys _
    exact ⟨e, rfl⟩
  | cons c rest ih =>
    intro e n ys hc
    by_cases hn : n = 0
    · subst hn
      exact ⟨e, Editor.redoFrom_zero _ e⟩
    · obtain ⟨zs, h1, _, h3⟩ := hc
      obtain ⟨r, b', hon, hb'⟩ := Command.redoOn_of_redoL c e.buffer zs h1
      rw [Editor.redoFrom_cons c rest e n hn, hon]
      exact ih _ _ ys (by show RedoChain rest b'.contents ys; rw [hb']; exact h3)

/-! ## When the buffer methods dereference no null pointer -/

theorem Buffer.revise_hasNode (b : Buffer) (n : Int) (w r : Nat) (b' : Buffer)
    (h : b.revise (b.data.nth n) w = some (r, b')) : b.HasNode n := by
  unfold Buffer.revise at h
  split at h
  · cases h
  · rename_i p hp
    split at h
    · cases h
    · rename_i node hd
      exact ⟨p, node, hp, hd⟩

theorem Buffer.insert_hasNode (b : Buffer) (n : Int) (w r : Nat) (b' : Buffer)
    (h : b.insert (b.data.nth n) w = some (r, b')) : b.HasNode n := by
  unfold Buffer.insert at h
  split at h
  · cases h
  · rename_i p hp
    split at h
    · cases h
    · rename_i node hd
      exact ⟨p, node, hp, hd⟩

theorem Buffer.remove_hasSuccessor (b : Buffer) (n : Int) (r : Nat) (b' : Buffer)
    (h : b.remove (b.data.nth n) = some (r, b')) : b.HasSuccessor n := by
  unfold Buffer.remove at h
  split at h
  · cases h
  · rename_i p hp
    split at h
    · cases h
    · rename_i node hd
      split at h
      · cases h
      · rename_i temp ht
        exact ⟨p, node, temp, hp, hd, ht⟩

theorem Buffer.HasSuccessor.hasNode (b : Buffer) (n : Int) (h : b.HasSuccessor n) :
    b.HasNode n := by
  obtain ⟨p, node, _, hp, hd, _⟩ := h
  exact ⟨p, node, hp, hd⟩

/-! ## The undo stack leads back to the loaded contents -/

theorem Editor.undoFrom_keeps (st : List Command) (xs0 : List Nat) :
    ∀ (e e1 : Editor) (n : Int), e.undoStack = st → e.buffer.IsBytes →
      UndoChain e.undoStack e.buffer.contents xs0 →
      (∃ ys, RedoChain e.redoStack e.buffer.contents ys) →
      Editor.undoFrom st e n = .ok e1 →
      e1.buffer.IsBytes ∧ UndoChain e1.undoStack e1.buffer.contents xs0 ∧
        (∃ ys, RedoChain e1.redoStack e1.buffer.contents ys) := by
  induction st with
  | nil =>
    intro e e1 n _ hb hu hr h
    cases h
    exact ⟨hb, hu, hr⟩
  | cons c rest ih =>
    intro e e1 n hst hb hu hr h
    by_cases hn : n = 0
    · subst hn
      rw [Editor.undoFrom_zero] at h
      cases h
      exact ⟨hb, hu, hr⟩
    · obtain ⟨ys, hr⟩ := hr
      rw [hst] at hu
      obtain ⟨zs, h1, h2, h3⟩ := hu
      obtain ⟨r, b', hon, hb'⟩ := Command.undoOn_of_undoL c e.buffer zs h1
      rw [Editor.undoFrom_cons c rest e n hn, hon] at h
      refine ih _ e1 _ rfl ?_ ?_ ?_ h
      · show ∀ x ∈ b'.contents, x < 256
        rw [hb']
        exact Command.undoL_bytes c _ _ h1 hb
      · show UndoChain rest b'.contents xs0
        rw [hb']
        exact h3
      · refine ⟨ys, ?_⟩
        show RedoChain (c :: e.redoStack) b'.contents ys
        rw [hb']
        exact ⟨e.buffer.contents, h2, h1, hr⟩

theorem Editor.redoFrom_keeps (st : List Command) (xs0 : List Nat) :
    ∀ (e e1 : Editor) (n : Int), e.redoStack = st → e.buffer.IsBytes →
      UndoChain e.undoStack e.buffer.contents xs0 →
      (∃ ys, RedoChain e.redoStack e.buffer.contents ys) →
      Editor.redoFrom st e n = .ok e1 →
      e1.buffer.IsBytes ∧ UndoChain e1.undoStack e1.buffer.contents xs0 ∧
        (∃ ys, RedoChain e1.redoStack e1.buffer.contents ys) := by
  induction st with
  | nil =>
    intro e e1 n _ hb hu hr h
    cases h
    exact ⟨hb, hu, hr⟩
  | cons c rest ih =>
    intro e e1 n hst hb hu hr h
    by_cases hn : n = 0
    · subst hn
      rw [Editor.redoFrom_zero] at h
      cases h
      exact ⟨hb, hu, hr⟩
    · obtain ⟨ys, hr⟩ := hr
      rw [hst] at hr
      obtain ⟨zs, h1, h2, h3⟩ := hr
      obtain ⟨r, b', hon, hb'⟩ := Command.redoOn_of_redoL c e.buffer zs h1
      rw [Editor.redoFrom_cons c rest e n hn, hon] at h
      refine ih _ e1 _ rfl ?_ ?_ ?_ h
      · show ∀ x ∈ b'.contents, x < 256
        rw [hb']
        exact Command.redoL_bytes c _ _ h1 hb
      · show UndoChain (c :: e.undoStack) b'.contents xs0
        rw [hb']
        exact ⟨e.buffer.contents, h2, h1, hu⟩
      · exact ⟨ys, by show RedoChain rest b'.contents ys; rw [hb']; exact h3⟩

theorem Editor.ReachableFrom.keeps (e0 e : Editor) (hu0 : e0.undoStack = [])
    (hr0 : e0.redoStack = []) (hb0 : e0.buffer.IsBytes) (h : Editor.ReachableFrom e0 e) :
    e.buffer.IsBytes ∧ UndoChain e.undoStack e.buffer.contents e0.buffer.contents ∧
      (∃ ys, RedoChain e.redoStack e.buffer.contents ys) := by
  induction h with
  | start =>
    rw [hu0, hr0]
    exact ⟨hb0, rfl, ⟨_, rfl⟩⟩
  | apply e e' m _ hm ih =>
    obtain ⟨hb, hu, _⟩ := ih
    obtain ⟨c, hc1, hc2, hc3, hc4, hc5⟩ := Editor.apply_step e e' m hb hm
    rw [hc1, hc2]
    exact ⟨hc5, ⟨e.buffer.contents, hc3, hc4, hu⟩, ⟨_, rfl⟩⟩
  | undo e e' n _ hn ih =>
    exact Editor.undoFrom_keeps e.undoStack _ e e' n rfl ih.1 ih.2.1 ih.2.2 hn
  | redo e e' n _ hn ih =>
    exact Editor.redoFrom_keeps e.redoStack _ e e' n rfl ih.1 ih.2.1 ih.2.2 hn

theorem Editor.ReachableFrom.after_applyAll (e0 : Editor) (ms : List Mutation) :
    ∀ (e e' : Editor), Editor.ReachableFrom e0 e → e.applyAll ms = .ok e' →
      Editor.ReachableFrom e0 e' := by
  induction ms with
  | nil =>
    intro e e' hr h
    cases h
    exact hr
  | cons m ms ih =>
    intro e e' hr h
    obtain ⟨e1, h1, h2⟩ := Editor.applyAll_cons_ok e e' m ms h
    exact ih e1 e' (Editor.ReachableFrom.apply e e1 m hr h1) h2

/-! ## Prefixes of a sequence of mutations -/

theorem Editor.applyAll_append (as bs : List Mutation) :
    ∀ (e e' : Editor), e.applyAll (as ++ bs) = .ok e' →
      ∃ em, e.applyAll as = .ok em ∧ em.applyAll bs = .ok e' := by
  induction as with
  | nil =>
    intro e e' h
    exact ⟨e, rfl, h⟩
  | cons a as ih =>
    intro e e' h
    obtain ⟨e1, h1, h2⟩ := Editor.applyAll_cons_ok e e' a (as ++ bs) h
    obtain ⟨em, h3, h4⟩ := ih e1 e' h2
    refine ⟨em, ?_, h4⟩
    show Editor.applyAll e (a :: as) = .ok em
    unfold Editor.applyAll
    rw [h1]
    exact h3

/-! ## Construction and saving, when the last link is null -/

theorem Buffer.links_null (values : List Nat) :
    ∀ (k i : Nat), i + k ≤ values.length →
      Buffer.links values none i k = some (Node.ofList 0 ((values.drop i).take k)).next := by
  intro k
  induction k with
  | zero =>
    intro i _
    rfl
  | succ k ih =>
    intro i hi
    have hlt : i < values.length := by omega
    have hx : values[i]? = some values[i] := List.getElem?_eq_getElem hlt
    have hd : values.drop i = values[i] :: values.drop (i + 1) :=
      List.drop_eq_cons_of_getElem values i _ hx
    unfold Buffer.links
    rw [hx]
    simp only [ih (i + 1) (by omega), Option.map_some', hd, List.take_succ_cons, Node.ofList,
      Node.next_mk, Node.mk_next_ofList]

theorem Buffer.create_null (values : List Nat) (len : Nat) (h : len ≤ values.length) :
    Buffer.create values len none = some (Buffer.mk (Node.ofList len (values.take len))) := by
  unfold Buffer.create
  rw [Buffer.links_null values len 0 (by omega), Option.map_some', List.drop_zero,
    Node.mk_next_ofList]

theorem Node.written_ofList (v : Nat) (xs : List Nat) :
    (Node.ofList v xs).written = u8 v :: xs.map u8 := by
  induction xs generalizing v with
  | nil => rfl
  | cons x xs ih => simp [Node.ofList, Node.written, ih]

theorem Editor.save_eq (e : Editor) : e.save = e.buffer.contents.map u8 := by
  unfold Editor.save
  rw [Buffer.nth_eq]
  rw [Buffer.eq_ofList e.buffer]
  generalize e.buffer.length = L
  generalize e.buffer.contents = xs
  rw [Buffer.contents_ofList]
  cases xs with
  | nil => rfl
  | cons x xs =>
    have hp : ptrL (x :: xs).length 0 = some 1 := by
      simp [ptrL]
    rw [hp]
    simp [Node.deref_ofList_succ, Node.written_ofList]

theorem List.map_u8_bytes (xs : List Nat) (hb : ∀ x ∈ xs, x < 256) : xs.map u8 = xs := by
  induction xs with
  | nil => rfl
  | cons x xs ih =>
    have hx : u8 x = x := by
      unfold u8
      have := hb x (List.mem_cons_self _ _)
      omega
    rw [List.map_cons, hx, ih (fun y hy => hb y (List.mem_cons_of_mem _ hy))]

theorem Editor.create_null_save (fileName : String) (file : List Nat)
    (hb : ∀ x ∈ file, x < 256) (h32 : file.length < 4294967296) :
    ∃ e, Editor.create fileName file none = some e ∧ e.buffer.length = file.length ∧
      e.buffer.contents = file ∧ e.save = file ∧ e.undoStack = [] ∧ e.redoStack = [] := by
  have hl : u32 file.length = file.length := by
    unfold u32
    omega
  have hc : Editor.create fileName file none = some
      { fileName := fileName
        cursor := ⟨false, -1, 0, 0⟩
        buffer := Buffer.mk (Node.ofList file.length file)
        undoStack := []
        redoStack := []
        isQuitting := false } := by
    unfold Editor.create
    rw [hl, Buffer.create_null file file.length (Nat.le_refl _), Option.map_some',
      List.take_length]
  refine ⟨_, hc, Buffer.length_ofList _ _, Buffer.contents_ofList _ _, ?_, rfl, rfl⟩
  rw [Editor.save_eq]
  show List.map u8 (Buffer.mk (Node.ofList file.length file)).contents = file
  rw [Buffer.contents_ofList, List.map_u8_bytes file hb]

/-! ## `revise` twice at one index, where the lookup finds the indexed node -/

theorem Buffer.revise_twice_within_s32 (b : Buffer) (idx v x : Nat)
    (hx : b.contents[idx]? = some x) (hxb : x < 256) (h31 : idx < 2147483648) :
    ∃ b1, b.revise (b.data.nth (s32 idx)) v = some (x, b1) ∧ b1.length = b.length ∧
      b1.contents = b.contents.set idx (v % 256) ∧
      b1.revise (b1.data.nth (s32 idx)) x = some (v % 256, b) := by
  have hidx : idx < b.contents.length := by
    rcases List.getElem?_eq_some_iff.mp hx with ⟨h, _⟩
    exact h
  have hu8 : u8 x = x := by
    unfold u8
    omega
  have hu8' : u8 (v % 256) = v % 256 := by
    unfold u8
    omega
  have hx' : (b.contents.set idx (v % 256))[idx]? = some (v % 256) := by
    rw [List.getElem?_set_self hidx]
  have hset : (b.contents.set idx (v % 256)).set idx (x % 256) = b.contents := by
    have h := reviseL_undo b.contents idx v x hx hxb
    simp only [reviseL, List.length_set, if_pos hidx, hu8] at h
    exact Option.some.inj h
  refine ⟨_, ?_, Buffer.length_ofList _ _, Buffer.contents_ofList _ _, ?_⟩
  · rw [Buffer.nth_eq, ptrL_of_lt _ _ hidx h31, Buffer.revise_some_succ _ _ _ _ hx, hu8]
  · rw [Buffer.nth_eq, Buffer.contents_ofList, List.length_set, ptrL_of_lt _ _ hidx h31,
      Buffer.revise_some_succ _ _ _ _ (by rw [Buffer.contents_ofList]; exact hx'),
      Buffer.contents_ofList, Buffer.length_ofList, hu8', hset, ← Buffer.eq_ofList b]

/-! ## The digit keys of `handleMainWinEvent` -/

theorem Editor.mainWinSwitch_decimal (e : Editor) (ch : Nat) (h1 : 48 ≤ ch) (h2 : ch ≤ 57) :
    e.mainWinSwitch (.char ch) =
      e.revise (u32OfS32 e.cursor.editPos) (u8 (u32 (e.cursor.value <<< 4) ||| (ch - 48))) := by
  simp only [Editor.mainWinSwitch]
  rw [if_neg (by omega), if_neg (by omega), if_neg (by omega), if_pos ⟨h1, h2⟩]

theorem Editor.mainWinSwitch_b_to_f (e : Editor) (ch : Nat) (h1 : 98 ≤ ch) (h2 : ch ≤ 102) :
    e.mainWinSwitch (.char ch) =
      e.revise (u32OfS32 e.cursor.editPos) (u8 (u32 (e.cursor.value <<< 4) ||| (ch - 87))) := by
  simp only [Editor.mainWinSwitch]
  rw [if_neg (by omega), if_neg (by omega), if_neg (by omega), if_neg (by omega),
    if_pos ⟨by omega, h2⟩]

theorem Editor.mainWinSwitch_a (e : Editor) : e.mainWinSwitch (.char 97) = .ok e := by
  simp only [Editor.mainWinSwitch]
  rw [if_neg (by omega), if_neg (by omega), if_neg (by omega), if_neg (by omega),
    if_neg (by omega)]

/-! ## The claims -/

/-- C1.  After any sequence of `k` mutations that all succeed, `undo(k)`
returns with the buffer contents of before the first mutation, and a following
`redo(k)` returns with the contents of after the last one.  The editor state is
arbitrary, provided its element nodes hold bytes, and `k` is an `s32` count. -/
theorem Editor.undo_redo_after_mutations (e e' : Editor) (ms : List Mutation)
    (hb : e.buffer.IsBytes) (hk : (ms.length : Int) < 2147483648)
    (h : e.applyAll ms = .ok e') :
    ∃ e1, e'.undo ms.length = .ok e1 ∧ e1.buffer.contents = e.buffer.contents ∧
      ∃ e2, e1.redo ms.length = .ok e2 ∧ e2.buffer.contents = e'.buffer.contents := by
  obtain ⟨cs, hl, hs, hch, _, _⟩ := Editor.applyAll_chain ms e e' hb h
  have htake : e'.undoStack.take (ms.length : Int).toNat = cs := by
    rw [hs, Int.toNat_ofNat, ← hl, List.take_left']
    rfl
  obtain ⟨e1, h1, h2, _, h4, _⟩ :=
    Editor.undoFrom_spec e'.undoStack e' ms.length e.buffer.contents rfl (by omega) hk
      (by rw [htake]; exact hch)
  refine ⟨e1, h1, h2, ?_⟩
  rw [htake] at h4
  have htake' : e1.redoStack.take (ms.length : Int).toNat = cs.reverse := by
    rw [h4, Int.toNat_ofNat, ← hl, List.take_left']
    simp
  obtain ⟨e2, g1, g2, _⟩ :=
    Editor.redoFrom_spec e1.redoStack e1 ms.length e'.buffer.contents rfl (by omega) hk
      (by rw [htake', h2]; exact UndoChain_reverse cs _ _ hch)
  exact ⟨e2, g1, g2⟩

/-- C1 at the scenario of the specification: the three calls on `10 20 30`,
then `undo(3)` and `redo(3)`. -/
theorem Editor.undo_redo_after_mutations_witness :
    ∃ e1, Editor.scenarioEnd.undo (scenarioCalls.length : Int) = .ok e1 ∧
      e1.buffer.contents = Editor.scenarioStart.buffer.contents ∧
      ∃ e2, e1.redo (scenarioCalls.length : Int) = .ok e2 ∧
        e2.buffer.contents = Editor.scenarioEnd.buffer.contents :=
  Editor.undo_redo_after_mutations Editor.scenarioStart Editor.scenarioEnd scenarioCalls
    (by decide) (by decide) rfl

/-- C2.  A mutation whose index is out of range ends at its assertion, in the
state it was called in: `revise` and `remove` when `idx` is at least the stored
length, `insert` when `idx` is greater than it. -/
theorem Editor.out_of_range_fails (e : Editor) (idx v : Nat) :
    (e.buffer.length ≤ idx → e.revise idx v = .assertFailed e) ∧
    (e.buffer.length ≤ idx → e.remove idx = .assertFailed e) ∧
    (e.buffer.length < idx → e.insert idx v = .assertFailed e) := by
  refine ⟨?_, ?_, ?_⟩
  · intro h
    have : ¬ idx < e.buffer.data.value := Nat.not_lt.mpr h
    simp only [Editor.revise, if_neg this]
  · intro h
    have : ¬ idx < e.buffer.data.value := Nat.not_lt.mpr h
    simp only [Editor.remove, if_neg this]
  · intro h
    have : ¬ idx ≤ e.buffer.data.value := Nat.not_le.mpr h
    simp only [Editor.insert, if_neg this]

/-- C2 at `revise(5, 0x00)` on the three bytes of the scenario. -/
theorem Editor.out_of_range_fails_witness :
    Editor.scenarioStart.revise 5 0 = .assertFailed Editor.scenarioStart :=
  (Editor.out_of_range_fails Editor.scenarioStart 5 0).1 (by decide)

/-- C3.  A mutation that succeeds leaves the redo stack empty, whatever it held
before, and `redo(1)` right after it returns in the same state. -/
theorem Editor.mutation_clears_redo (e e' : Editor) (m : Mutation) (h : e.apply m = .ok e') :
    e'.redoStack = [] ∧ e'.redo 1 = .ok e' ∧ e'.redoDefault = .ok e' := by
  have hre : e'.redoStack = [] := by
    cases m with
    | revise idx w =>
      obtain ⟨_, _, _, _, rfl⟩ := Editor.revise_ok e e' idx w h
      rfl
    | insert idx w =>
      obtain ⟨_, _, _, _, rfl⟩ := Editor.insert_ok e e' idx w h
      rfl
    | remove idx =>
      obtain ⟨_, _, _, _, rfl⟩ := Editor.remove_ok e e' idx h
      rfl
  have hredo : e'.redo 1 = .ok e' := by
    unfold Editor.redo
    rw [hre]
    rfl
  exact ⟨hre, hredo, hredo⟩

/-- C3 at the scenario, after `undo(3)` has filled the redo stack:
`insert(0, 7)` empties it. -/
theorem Editor.mutation_clears_redo_witness :
    Editor.scenarioUndone.redoStack.length = 3 ∧
    (Editor.scenarioUndone.insert 0 7 = .ok
      { Editor.scenarioUndone with
        buffer := ⟨Node.ofList 4 [7, 0x10, 0x20, 0x30]⟩
        undoStack := [⟨.INSERT, 0, 0, 7⟩]
        redoStack := [] }) ∧
    (({ Editor.scenarioUndone with
        buffer := ⟨Node.ofList 4 [7, 0x10, 0x20, 0x30]⟩
        undoStack := [⟨.INSERT, 0, 0, 7⟩]
        redoStack := [] } : Editor).redo 1 = .ok
      { Editor.scenarioUndone with
        buffer := ⟨Node.ofList 4 [7, 0x10, 0x20, 0x30]⟩
        undoStack := [⟨.INSERT, 0, 0, 7⟩]
        redoStack := [] }) :=
  ⟨rfl, rfl,
    (Editor.mutation_clears_redo Editor.scenarioUndone _ (.insert 0 7) rfl).2.1⟩

/-- C4.  In a reachable state, `undo(n)` with `0 ≤ n` returns, having moved the
top `min(n, depth)` commands of the undo stack onto the redo stack, the first
popped pushed first, the rest of both stacks untouched; `redo(n)` does the same
from the redo stack onto the undo stack; `undo()` and `redo()` are the calls
with `n = 1`. -/
theorem Editor.undo_redo_moves (e : Editor) (n : Int) (hr : e.Reachable) (h0 : 0 ≤ n)
    (h1 : n < 2147483648) :
    (∃ e1, e.undo n = .ok e1 ∧
      e1.undoStack = e.undoStack.drop (min n.toNat e.undoStack.length) ∧
      e1.redoStack = (e.undoStack.take (min n.toNat e.undoStack.length)).reverse ++ e.redoStack) ∧
    (∃ e2, e.redo n = .ok e2 ∧
      e2.redoStack = e.redoStack.drop (min n.toNat e.redoStack.length) ∧
      e2.undoStack = (e.redoStack.take (min n.toNat e.redoStack.length)).reverse ++ e.undoStack) ∧
    e.undoDefault = e.undo 1 ∧ e.redoDefault = e.redo 1 := by
  obtain ⟨_, ⟨xs, hu⟩, ⟨ys, hre⟩⟩ := Editor.Reachable.inv e hr
  have tk : ∀ st : List Command, st.take (min n.toNat st.length) = st.take n.toNat := by
    intro st
    rw [List.take_eq_take]
    simp
  have dr : ∀ st : List Command, st.drop (min n.toNat st.length) = st.drop n.toNat := by
    intro st
    rcases Nat.le_total n.toNat st.length with h | h
    · rw [Nat.min_eq_left h]
    · rw [Nat.min_eq_right h, List.drop_length, List.drop_of_length_le h]
  refine ⟨?_, ?_, rfl, rfl⟩
  · obtain ⟨zs, hz⟩ := UndoChain_take e.undoStack n.toNat _ _ hu
    obtain ⟨e1, g1, _, g3, g4, _⟩ := Editor.undoFrom_spec e.undoStack e n zs rfl h0 h1 hz
    exact ⟨e1, g1, by rw [g3, dr], by rw [g4, tk]⟩
  · obtain ⟨zs, hz⟩ := RedoChain_take e.redoStack n.toNat _ _ hre
    obtain ⟨e2, g1, _, g3, g4, _⟩ := Editor.redoFrom_spec e.redoStack e n zs rfl h0 h1 hz
    exact ⟨e2, g1, by rw [g3, dr], by rw [g4, tk]⟩

/-- C4 at the end of the scenario, with `n = 5` larger than the depth 3 of the
undo stack. -/
theorem Editor.undo_redo_moves_witness :
    (∃ e1, Editor.scenarioEnd.undo 5 = .ok e1 ∧
      e1.undoStack =
        Editor.scenarioEnd.undoStack.drop (min (5 : Int).toNat Editor.scenarioEnd.undoStack.length) ∧
      e1.redoStack =
        (Editor.scenarioEnd.undoStack.take
          (min (5 : Int).toNat Editor.scenarioEnd.undoStack.length)).reverse ++
          Editor.scenarioEnd.redoStack) ∧
    (∃ e2, Editor.scenarioEnd.redo 5 = .ok e2 ∧
      e2.redoStack =
        Editor.scenarioEnd.redoStack.drop (min (5 : Int).toNat Editor.scenarioEnd.redoStack.length) ∧
      e2.undoStack =
        (Editor.scenarioEnd.redoStack.take
          (min (5 : Int).toNat Editor.scenarioEnd.redoStack.length)).reverse ++
          Editor.scenarioEnd.undoStack) ∧
    Editor.scenarioEnd.undoDefault = Editor.scenarioEnd.undo 1 ∧
    Editor.scenarioEnd.redoDefault = Editor.scenarioEnd.redo 1 :=
  Editor.undo_redo_moves Editor.scenarioEnd 5
    (Editor.Reachable.of_applyAll scenarioCalls Editor.scenarioStart Editor.scenarioEnd
      (Editor.Reachable.fresh Editor.scenarioStart rfl rfl (by decide) (by decide) (by decide)) rfl)
    (by decide) (by decide)

/-- C5 refuted as stated: at the end of the scenario `undo(-1)` undoes all three
commands, and `redo(-1)` after it redoes all three. -/
theorem Editor.undo_negative_runs :
    Editor.scenarioEnd.undo (-1) = .ok Editor.scenarioUndone ∧
    Editor.scenarioUndone.buffer.contents ≠ Editor.scenarioEnd.buffer.contents ∧
    Editor.scenarioUndone.undoStack ≠ Editor.scenarioEnd.undoStack ∧
    Editor.scenarioUndone.redoStack ≠ Editor.scenarioEnd.redoStack ∧
    Editor.scenarioUndone.redo (-1) = .ok Editor.scenarioEnd :=
  ⟨rfl, by decide, by decide, by decide, rfl⟩

/-- C5 as amended.  `undo(0)` and `redo(0)` return in the state they were called
in.  A negative `n` does not stop the loop: `undo(n)` ends as `undo(depth)`
does, with `depth` the depth of the undo stack, as long as `depth ≤ n + 2^31`
(so that `n - 1` stays an `s32`); likewise `redo(n)` on the redo stack. -/
theorem Editor.undo_redo_nonpositive (e : Editor) (n : Int) :
    (e.undo 0 = .ok e ∧ e.redo 0 = .ok e) ∧
    (n < 0 → (e.undoStack.length : Int) ≤ n + 2147483648 →
      e.undo n = e.undo e.undoStack.length) ∧
    (n < 0 → (e.redoStack.length : Int) ≤ n + 2147483648 →
      e.redo n = e.redo e.redoStack.length) :=
  ⟨⟨Editor.undoFrom_zero _ e, Editor.redoFrom_zero _ e⟩,
    fun hn hd => Editor.undoFrom_negative e.undoStack e n hn hd,
    fun hn hd => Editor.redoFrom_negative e.redoStack e n hn hd⟩

/-- C5 as amended, at the end of the scenario: `undo(-1)` is `undo(3)`. -/
theorem Editor.undo_redo_nonpositive_witness :
    Editor.scenarioEnd.undo (-1) = Editor.scenarioEnd.undo Editor.scenarioEnd.undoStack.length :=
  (Editor.undo_redo_nonpositive Editor.scenarioEnd (-1)).2.1 (by decide) (by decide)

/-! ## Indices that do not fit the `s32` parameter of `nth` -/

theorem List.cons_replicate_ne_append (n : Nat) :
    (1 : Nat) :: List.replicate (n + 1) 0 ≠
      (List.replicate (n + 1) 0).take (n + 1) ++ [1] ++ (List.replicate (n + 1) 0).drop (n + 1) := by
  simp [List.replicate_succ]

theorem List.replicate_ne_erase (n : Nat) :
    List.replicate (n + 1) 0 ≠
      ((7 : Nat) :: List.replicate (n + 1) 0).take (n + 1) ++
        ((7 : Nat) :: List.replicate (n + 1) 0).drop (n + 2) := by
  simp [List.replicate_succ]

theorem List.cons_replicate_getElem (n : Nat) :
    ((7 : Nat) :: List.replicate (n + 1) 0)[n + 1]? = some 0 := by
  simp [List.getElem?_replicate]

theorem Editor.over_reachable (L : Nat) (xs : List Nat) (hb : ∀ x ∈ xs, x < 256)
    (hl : L = xs.length) (h32 : L < 4294967296) : (Editor.over L xs).Reachable :=
  Editor.Reachable.fresh _ rfl rfl (by rw [Buffer.IsBytes, Editor.over_contents]; exact hb)
    (by rw [Editor.over_length, Editor.over_contents]; exact hl)
    (by rw [Editor.over_length]; exact h32)

theorem List.replicate_zero_bytes (n : Nat) : ∀ x ∈ List.replicate n 0, x < 256 := by
  intro x hx
  rw [List.eq_of_mem_replicate hx]
  decide

/-- C6 at a failing input: on a freshly loaded buffer of 2147483649 zero bytes,
`insert(2147483649, 1)` passes its assertion (`idx` is the length, an append),
but `idx - 1 = 2^31` converts to a negative `s32`, `nth` returns the head, and
the new byte becomes element 0 instead of the last element. -/
theorem Editor.insert_above_s32 :
    (Editor.over 2147483649 (List.replicate 2147483649 0)).Reachable ∧
    ∃ e', (Editor.over 2147483649 (List.replicate 2147483649 0)).insert 2147483649 1 = .ok e' ∧
      e'.buffer.contents = 1 :: List.replicate 2147483649 0 ∧
      e'.buffer.contents ≠
        (List.replicate 2147483649 0).take 2147483649 ++ [1] ++
          (List.replicate 2147483649 0).drop 2147483649 := by
  obtain ⟨e', h1, h2, _⟩ :=
    Editor.insert_at_head (Editor.over 2147483649 (List.replicate 2147483649 0)) 2147483649 1
      (by rw [Editor.over_length]) (by unfold s32 u32pred u32; omega)
  rw [Editor.over_contents] at h2
  refine ⟨Editor.over_reachable _ _ (List.replicate_zero_bytes _)
    (List.length_replicate _ _).symm (by decide), e', h1, h2, ?_⟩
  rw [h2]
  exact List.cons_replicate_ne_append 2147483648

/-- C7 at a failing input: on the freshly loaded buffer `7 0 0 ... 0` of
2147483650 bytes,
`remove(2147483649)` passes its assertion, but `idx - 1 = 2^31` converts to a
negative `s32`, `nth` returns the head, and the byte removed and recorded is
element 0 (the 7), not element 2147483649 (a 0). -/
theorem Editor.remove_above_s32 :
    (Editor.over 2147483650 (7 :: List.replicate 2147483649 0)).Reachable ∧
    ∃ e', (Editor.over 2147483650 (7 :: List.replicate 2147483649 0)).remove 2147483649 = .ok e' ∧
      e'.buffer.contents = List.replicate 2147483649 0 ∧
      e'.undoStack = [⟨.REMOVE, 2147483649, 7, 0⟩] ∧
      (7 :: List.replicate 2147483649 0)[2147483649]? = some 0 ∧
      e'.buffer.contents ≠
        (7 :: List.replicate 2147483649 0).take 2147483649 ++
          (7 :: List.replicate 2147483649 0).drop 2147483650 := by
  obtain ⟨e', h1, h2, _, h4⟩ :=
    Editor.remove_at_head (Editor.over 2147483650 (7 :: List.replicate 2147483649 0)) 2147483649 7
      (by rw [Editor.over_length]; decide) (by unfold s32 u32pred u32; omega)
      (by rw [Editor.over_contents, List.getElem?_cons_zero])
  rw [Editor.over_contents, List.eraseIdx_cons_zero] at h2
  have hbytes : ∀ x ∈ (7 : Nat) :: List.replicate 2147483649 0, x < 256 := by
    intro x hx
    rcases List.mem_cons.mp hx with h | h
    · rw [h]
      decide
    · exact List.replicate_zero_bytes _ x h
  have hlen : 2147483650 = ((7 : Nat) :: List.replicate 2147483649 0).length := by
    rw [List.length_cons, List.length_replicate]
  refine ⟨Editor.over_reachable _ _ hbytes hlen (by decide), e', h1, h2, h4,
    List.cons_replicate_getElem 2147483648, ?_⟩
  rw [h2]
  exact List.replicate_ne_erase 2147483648

/-- C8 at a failing input: on a freshly loaded buffer of 2147483649 zero bytes,
`revise(2147483648, 1)` passes its assertion, but `idx = 2^31` converts to a
negative `s32`, `nth` returns the head, and the call overwrites the stored
length with 1, leaves element 2147483648 at 0 and records the low byte of the
old length as the overwritten value. -/
theorem Editor.revise_above_s32 :
    (Editor.over 2147483649 (List.replicate 2147483649 0)).Reachable ∧
    ∃ e', (Editor.over 2147483649 (List.replicate 2147483649 0)).revise 2147483648 1 = .ok e' ∧
      e'.buffer.contents = List.replicate 2147483649 0 ∧
      e'.buffer.contents[2147483648]? = some 0 ∧
      e'.buffer.length = 1 ∧
      e'.undoStack = [⟨.REVISE, 2147483648, 1, 1⟩] := by
  obtain ⟨e', h1, h2, h3, h4⟩ :=
    Editor.revise_at_head (Editor.over 2147483649 (List.replicate 2147483649 0)) 2147483648 1
      (by rw [Editor.over_length]; decide) (by unfold s32; omega)
  rw [Editor.over_contents] at h2
  refine ⟨Editor.over_reachable _ _ (List.replicate_zero_bytes _)
    (List.length_replicate _ _).symm (by decide), e', h1, h2, ?_, h3, h4⟩
  rw [h2, List.getElem?_replicate, if_pos (by decide)]

/-! ## Round trips on the buffer -/

/-- C9.  On every buffer (stored length a `u32`) and for every `idx` up to the
number of elements, `insert` through `nth(idx - 1)` succeeds and `remove`
through `nth(idx - 1)` on the result returns the inserted byte and gives back
the buffer of before the insert: the same chain and the same stored length. -/
theorem Buffer.insert_then_remove (b : Buffer) (idx v : Nat) (hL : b.length < 4294967296)
    (hidx : idx ≤ b.contents.length) :
    ∃ b1, b.insert (b.data.nth (s32 (u32pred idx))) v = some (0, b1) ∧
      b1.remove (b1.data.nth (s32 (u32pred idx))) = some (v % 256, b) := by
  obtain ⟨p, hp, _, _⟩ := ptrL_pred_valid b.contents.length idx hidx
  have hple : p ≤ b.contents.length := ptrL_le _ _ _ hp
  refine ⟨_, by rw [Buffer.nth_eq, hp, Buffer.insert_some _ _ _ hple], ?_⟩
  have hp' : ptrL (b.contents.take p ++ (v % 256) :: b.contents.drop p).length
      (s32 (u32pred idx)) = some p :=
    ptrL_stable _ _ _ _ hp (by simp; omega)
  have hlen : u32 (u32 (b.length + 1) + 4294967295) = b.length := by
    unfold u32
    omega
  have hu8 : u8 (v % 256) = v % 256 := by
    unfold u8
    omega
  rw [Buffer.nth_eq, Buffer.contents_ofList, hp',
    Buffer.remove_some _ p (v % 256)
      (by rw [Buffer.contents_ofList]; exact List.getElem?_insert_self _ _ _ hple),
    Buffer.contents_ofList, Buffer.length_ofList, hlen, hu8,
    List.eraseIdx_insert_self _ _ _ hple, ← Buffer.eq_ofList b]

/-- C9 on the three bytes of the scenario, with `idx = 1` and `v = 0xAA`. -/
theorem Buffer.insert_then_remove_witness :
    ∃ b1, Editor.scenarioStart.buffer.insert
        (Editor.scenarioStart.buffer.data.nth (s32 (u32pred 1))) 0xAA = some (0, b1) ∧
      b1.remove (b1.data.nth (s32 (u32pred 1))) = some (0xAA % 256, Editor.scenarioStart.buffer) :=
  Buffer.insert_then_remove Editor.scenarioStart.buffer 1 0xAA (by decide) (by decide)

/-- C10.  On every buffer of bytes (stored length a `u32`) and for every `idx`
below the number of elements, `remove` through `nth(idx - 1)` succeeds and
`insert` of the returned value through `nth(idx - 1)` on the result gives back
the buffer of before the removal: the same chain and the same stored length. -/
theorem Buffer.remove_then_insert (b : Buffer) (idx : Nat) (hL : b.length < 4294967296)
    (hb : b.IsBytes) (hidx : idx < b.contents.length) :
    ∃ old b1, b.remove (b.data.nth (s32 (u32pred idx))) = some (old, b1) ∧
      b1.insert (b1.data.nth (s32 (u32pred idx))) old = some (0, b) := by
  obtain ⟨p, hp, hpi, _⟩ := ptrL_pred_valid b.contents.length idx (Nat.le_of_lt hidx)
  have hplt : p < b.contents.length := by omega
  have hx : b.contents[p]? = some b.contents[p] := List.getElem?_eq_getElem hplt
  have hxb : b.contents[p] < 256 := hb _ (List.getElem?_mem hx)
  refine ⟨_, _, by rw [Buffer.nth_eq, hp, Buffer.remove_some _ _ _ hx], ?_⟩
  have hle : p ≤ (b.contents.eraseIdx p).length := by
    rw [List.length_eraseIdx]
    simp [hplt]
    omega
  have hp' : ptrL (b.contents.eraseIdx p).length (s32 (u32pred idx)) = some p :=
    ptrL_stable _ _ _ _ hp hle
  have hlen : u32 (u32 (b.length + 4294967295) + 1) = b.length := by
    unfold u32
    omega
  have hu8 : u8 b.contents[p] % 256 = b.contents[p] := by
    unfold u8
    omega
  rw [Buffer.nth_eq, Buffer.contents_ofList, hp',
    Buffer.insert_some _ p _ (by rw [Buffer.contents_ofList]; exact hle),
    Buffer.contents_ofList, Buffer.length_ofList, hlen, hu8,
    List.insert_eraseIdx_self _ _ _ hx, ← Buffer.eq_ofList b]

/-- C10 on the three bytes of the scenario, with `idx = 1`. -/
theorem Buffer.remove_then_insert_witness :
    ∃ old b1, Editor.scenarioStart.buffer.remove
        (Editor.scenarioStart.buffer.data.nth (s32 (u32pred 1))) = some (old, b1) ∧
      b1.insert (b1.data.nth (s32 (u32pred 1))) old = some (0, Editor.scenarioStart.buffer) :=
  Buffer.remove_then_insert Editor.scenarioStart.buffer 1 (by decide) (by decide) (by decide)

/-! ## History in reachable states -/

/-- C14.  In every reachable state `undo(n)` and `redo(n)` return, for every
`n`, and the step they take on the top command looks up a node that exists:
`nth` does not return `nullptr`, and where the step removes (undo of an INSERT,
redo of a REMOVE) the node found has a successor. -/
theorem Editor.undo_redo_never_fail (e : Editor) (n : Int) (hr : e.Reachable) :
    (∃ e', e.undo n = .ok e') ∧ (∃ e', e.redo n = .ok e') ∧
    (∀ c rest, e.undoStack = c :: rest →
      (c.type = .REVISE → e.buffer.HasNode (s32 c.idx)) ∧
      (c.type = .INSERT → e.buffer.HasSuccessor (s32 (u32pred c.idx))) ∧
      (c.type = .REMOVE → e.buffer.HasNode (s32 (u32pred c.idx)))) ∧
    (∀ c rest, e.redoStack = c :: rest →
      (c.type = .REVISE → e.buffer.HasNode (s32 c.idx)) ∧
      (c.type = .INSERT → e.buffer.HasNode (s32 (u32pred c.idx))) ∧
      (c.type = .REMOVE → e.buffer.HasSuccessor (s32 (u32pred c.idx)))) := by
  obtain ⟨_, ⟨xs, hu⟩, ⟨ys, hre⟩⟩ := Editor.Reachable.inv e hr
  refine ⟨Editor.undoFrom_total e.undoStack e n xs hu, Editor.redoFrom_total e.redoStack e n ys hre,
    ?_, ?_⟩
  · intro c rest hst
    rw [hst] at hu
    obtain ⟨zs, h1, _, _⟩ := hu
    obtain ⟨r, b', hon, _⟩ := Command.undoOn_of_undoL c e.buffer zs h1
    unfold Command.undoOn at hon
    refine ⟨?_, ?_, ?_⟩
    · intro ht
      rw [ht] at hon
      exact Buffer.revise_hasNode _ _ _ _ _ hon
    · intro ht
      rw [ht] at hon
      exact Buffer.remove_hasSuccessor _ _ _ _ hon
    · intro ht
      rw [ht] at hon
      exact Buffer.insert_hasNode _ _ _ _ _ hon
  · intro c rest hst
    rw [hst] at hre
    obtain ⟨zs, h1, _, _⟩ := hre
    obtain ⟨r, b', hon, _⟩ := Command.redoOn_of_redoL c e.buffer zs h1
    unfold Command.redoOn at hon
    refine ⟨?_, ?_, ?_⟩
    · intro ht
      rw [ht] at hon
      exact Buffer.revise_hasNode _ _ _ _ _ hon
    · intro ht
      rw [ht] at hon
      exact Buffer.insert_hasNode _ _ _ _ _ hon
    · intro ht
      rw [ht] at hon
      exact Buffer.remove_hasSuccessor _ _ _ _ hon

/-- C14 at the end of the scenario, for `undo(2)`: the top command is the
`REMOVE` at index 0. -/
theorem Editor.undo_redo_never_fail_witness :
    (∃ e', Editor.scenarioEnd.undo 2 = .ok e') ∧
    Editor.scenarioEnd.buffer.HasNode (s32 (u32pred 0)) :=
  ⟨(Editor.undo_redo_never_fail Editor.scenarioEnd 2
      (Editor.Reachable.of_applyAll scenarioCalls Editor.scenarioStart Editor.scenarioEnd
        (Editor.Reachable.fresh Editor.scenarioStart rfl rfl (by decide) (by decide) (by decide))
        rfl)).1,
    ((Editor.undo_redo_never_fail Editor.scenarioEnd 2
      (Editor.Reachable.of_applyAll scenarioCalls Editor.scenarioStart Editor.scenarioEnd
        (Editor.Reachable.fresh Editor.scenarioStart rfl rfl (by decide) (by decide) (by decide))
        rfl)).2.2.1 ⟨.REMOVE, 0, 0x10, 0⟩ _ rfl).2.2 rfl⟩

/-- C15.  From an editor with empty stacks and a buffer of bytes, after any
calls of `revise`, `insert`, `remove`, `undo` and `redo` that returned,
`undo(d)` with `d` the depth of the undo stack returns with the contents the
editor started with. -/
theorem Editor.undo_all_restores_loaded (e0 e : Editor) (hu0 : e0.undoStack = [])
    (hr0 : e0.redoStack = []) (hb0 : e0.buffer.IsBytes) (h : Editor.ReachableFrom e0 e)
    (hd : (e.undoStack.length : Int) < 2147483648) :
    ∃ e1, e.undo e.undoStack.length = .ok e1 ∧
      e1.buffer.contents = e0.buffer.contents ∧ e1.undoStack = [] := by
  obtain ⟨_, hu, _⟩ := Editor.ReachableFrom.keeps e0 e hu0 hr0 hb0 h
  have htake : e.undoStack.take (e.undoStack.length : Int).toNat = e.undoStack := by
    rw [Int.toNat_ofNat, List.take_length]
  obtain ⟨e1, h1, h2, h3, _⟩ :=
    Editor.undoFrom_spec e.undoStack e e.undoStack.length e0.buffer.contents rfl (by omega) hd
      (by rw [htake]; exact hu)
  refine ⟨e1, h1, h2, ?_⟩
  rw [h3, Int.toNat_ofNat, List.drop_length]

/-- C15 at the scenario: the three calls, `undo(3)`, `redo(2)`, and then
`undo(2)` with 2 the depth of the undo stack. -/
theorem Editor.undo_all_restores_loaded_witness :
    ∃ e1, ({ Editor.scenarioEnd with
        buffer := ⟨Node.ofList 4 [0x10, 0xAA, 0x30, 0xFF]⟩
        undoStack := [⟨.INSERT, 3, 0, 0xFF⟩, ⟨.REVISE, 1, 0x20, 0xAA⟩]
        redoStack := [⟨.REMOVE, 0, 0x10, 0⟩] } : Editor).undo
          (({ Editor.scenarioEnd with
            buffer := ⟨Node.ofList 4 [0x10, 0xAA, 0x30, 0xFF]⟩
            undoStack := [⟨.INSERT, 3, 0, 0xFF⟩, ⟨.REVISE, 1, 0x20, 0xAA⟩]
            redoStack := [⟨.REMOVE, 0, 0x10, 0⟩] } : Editor).undoStack.length : Int) = .ok e1 ∧
      e1.buffer.contents = Editor.scenarioStart.buffer.contents ∧ e1.undoStack = [] :=
  Editor.undo_all_restores_loaded Editor.scenarioStart _ rfl rfl (by decide)
    (Editor.ReachableFrom.redo Editor.scenarioUndone _ 2
      (Editor.ReachableFrom.undo Editor.scenarioEnd _ 3
        (Editor.ReachableFrom.after_applyAll Editor.scenarioStart scenarioCalls
          Editor.scenarioStart Editor.scenarioEnd Editor.ReachableFrom.start rfl)
        rfl)
      rfl)
    (by decide)

/-- C17.  After `k` mutations that all succeed, `undo(k)` followed by `redo(j)`
with `j ≤ k` returns with the contents the buffer had right after the first `j`
of the mutations. -/
theorem Editor.undo_then_redo_prefix (e e' : Editor) (ms : List Mutation) (j : Nat)
    (hb : e.buffer.IsBytes) (hk : (ms.length : Int) < 2147483648)
    (h : e.applyAll ms = .ok e') (hj : j ≤ ms.length) :
    ∃ ej e1 e2, e.applyAll (ms.take j) = .ok ej ∧ e'.undo ms.length = .ok e1 ∧
      e1.redo j = .ok e2 ∧ e2.buffer.contents = ej.buffer.contents := by
  rw [← List.take_append_drop j ms] at h
  obtain ⟨ej, ha, hbk⟩ := Editor.applyAll_append _ _ e e' h
  obtain ⟨cs1, hl1, hs1, hc1, _, hbj⟩ := Editor.applyAll_chain _ e ej hb ha
  obtain ⟨cs2, hl2, hs2, hc2, _, _⟩ := Editor.applyAll_chain _ ej e' hbj hbk
  have hlen1 : cs1.length = j := by
    rw [hl1, List.length_take]
    omega
  have hlen : (cs2 ++ cs1).length = ms.length := by
    rw [List.length_append, hl1, hl2, List.length_take, List.length_drop]
    omega
  have hst : e'.undoStack = (cs2 ++ cs1) ++ e.undoStack := by
    rw [hs2, hs1, List.append_assoc]
  have htake : e'.undoStack.take (ms.length : Int).toNat = cs2 ++ cs1 := by
    rw [hst, Int.toNat_ofNat, ← hlen, List.take_left']
    rfl
  have hchain : UndoChain (cs2 ++ cs1) e'.buffer.contents e.buffer.contents := by
    rw [UndoChain_append]
    exact ⟨ej.buffer.contents, hc2, hc1⟩
  obtain ⟨e1, g1, g2, _, g4, _⟩ :=
    Editor.undoFrom_spec e'.undoStack e' ms.length e.buffer.contents rfl (by omega) hk
      (by rw [htake]; exact hchain)
  have htake' : e1.redoStack.take (j : Int).toNat = cs1.reverse := by
    rw [g4, htake, List.reverse_append, List.append_assoc, Int.toNat_ofNat, ← hlen1,
      ← List.length_reverse, List.take_left']
    rfl
  obtain ⟨e2, k1, k2, _⟩ :=
    Editor.redoFrom_spec e1.redoStack e1 j ej.buffer.contents rfl (by omega) (by omega)
      (by rw [htake', g2]; exact UndoChain_reverse cs1 _ _ hc1)
  exact ⟨ej, e1, e2, ha, g1, k1, k2⟩

/-- C17 at the scenario of the specification: `undo(3)` then `redo(2)` gives
`10 AA 30 FF`, the contents after the first two calls. -/
theorem Editor.undo_then_redo_prefix_witness :
    (∃ ej e1 e2, Editor.scenarioStart.applyAll (scenarioCalls.take 2) = .ok ej ∧
      Editor.scenarioEnd.undo scenarioCalls.length = .ok e1 ∧
      e1.redo (2 : Nat) = .ok e2 ∧ e2.buffer.contents = ej.buffer.contents) ∧
    (∃ e2, Editor.scenarioUndone.redo 2 = .ok e2 ∧
      e2.buffer.contents = [0x10, 0xAA, 0x30, 0xFF]) :=
  ⟨Editor.undo_then_redo_prefix Editor.scenarioStart Editor.scenarioEnd scenarioCalls 2
    (by decide) (by decide) rfl (by decide), ⟨_, rfl, rfl⟩⟩

/-- C18.  In a reachable state, `undo(n)` followed by `redo(n)`, for `n` up to
the depth of the undo stack, returns with the buffer contents, the undo stack
and the redo stack of before; and so does `redo(n)` followed by `undo(n)`, for
`n` up to the depth of the redo stack. -/
theorem Editor.undo_redo_inverse (e : Editor) (n : Nat) (hr : e.Reachable)
    (h31 : (n : Int) < 2147483648) :
    (n ≤ e.undoStack.length → ∃ e1 e2, e.undo n = .ok e1 ∧ e1.redo n = .ok e2 ∧
      e2.buffer.contents = e.buffer.contents ∧ e2.undoStack = e.undoStack ∧
      e2.redoStack = e.redoStack) ∧
    (n ≤ e.redoStack.length → ∃ e1 e2, e.redo n = .ok e1 ∧ e1.undo n = .ok e2 ∧
      e2.buffer.contents = e.buffer.contents ∧ e2.undoStack = e.undoStack ∧
      e2.redoStack = e.redoStack) := by
  obtain ⟨_, ⟨xs, hu⟩, ⟨ys, hre⟩⟩ := Editor.Reachable.inv e hr
  constructor
  · intro hn
    obtain ⟨zs, hz⟩ := UndoChain_take e.undoStack n _ _ hu
    obtain ⟨e1, g1, g2, g3, g4, _⟩ :=
      Editor.undoFrom_spec e.undoStack e n zs rfl (by omega) h31 (by simpa using hz)
    simp only [Int.toNat_ofNat] at g3 g4
    have hl : ((e.undoStack.take n).reverse).length = n := by
      rw [List.length_reverse, List.length_take]
      omega
    have htake : e1.redoStack.take (n : Int).toNat = (e.undoStack.take n).reverse := by
      rw [g4, Int.toNat_ofNat]
      exact List.take_left' hl
    obtain ⟨e2, k1, k2, k3, k4, _⟩ :=
      Editor.redoFrom_spec e1.redoStack e1 n e.buffer.contents rfl (by omega) h31
        (by rw [htake, g2]; exact UndoChain_reverse _ _ _ hz)
    refine ⟨e1, e2, g1, k1, k2, ?_, ?_⟩
    · rw [k4, htake, List.reverse_reverse, g3, List.take_append_drop]
    · rw [k3, g4, Int.toNat_ofNat]
      exact List.drop_left' hl
  · intro hn
    obtain ⟨zs, hz⟩ := RedoChain_take e.redoStack n _ _ hre
    obtain ⟨e1, g1, g2, g3, g4, _⟩ :=
      Editor.redoFrom_spec e.redoStack e n zs rfl (by omega) h31 (by simpa using hz)
    simp only [Int.toNat_ofNat] at g3 g4
    have hl : ((e.redoStack.take n).reverse).length = n := by
      rw [List.length_reverse, List.length_take]
      omega
    have htake : e1.undoStack.take (n : Int).toNat = (e.redoStack.take n).reverse := by
      rw [g4, Int.toNat_ofNat]
      exact List.take_left' hl
    obtain ⟨e2, k1, k2, k3, k4, _⟩ :=
      Editor.undoFrom_spec e1.undoStack e1 n e.buffer.contents rfl (by omega) h31
        (by rw [htake, g2]; exact RedoChain_reverse _ _ _ hz)
    refine ⟨e1, e2, g1, k1, k2, ?_, ?_⟩
    · rw [k3, g4, Int.toNat_ofNat]
      exact List.drop_left' hl
    · rw [k4, htake, List.reverse_reverse, g3, List.take_append_drop]

/-- C18 at the end of the scenario, with `n = 2`. -/
theorem Editor.undo_redo_inverse_witness :
    ∃ e1 e2, Editor.scenarioEnd.undo (2 : Nat) = .ok e1 ∧ e1.redo (2 : Nat) = .ok e2 ∧
      e2.buffer.contents = Editor.scenarioEnd.buffer.contents ∧
      e2.undoStack = Editor.scenarioEnd.undoStack ∧
      e2.redoStack = Editor.scenarioEnd.redoStack :=
  (Editor.undo_redo_inverse Editor.scenarioEnd 2
    (Editor.Reachable.of_applyAll scenarioCalls Editor.scenarioStart Editor.scenarioEnd
      (Editor.Reachable.fresh Editor.scenarioStart rfl rfl (by decide) (by decide) (by decide))
      rfl)
    (by decide)).1 (by decide)

/-! ## More on indices at and above 2^31, and on the last link of a new buffer -/

theorem Editor.revise_assert (e : Editor) (idx v : Nat) (h : e.buffer.length ≤ idx) :
    e.revise idx v = .assertFailed e := by
  have : ¬ idx < e.buffer.data.value := Nat.not_lt.mpr h
  simp only [Editor.revise, if_neg this]

theorem List.replicate_bytes (n a : Nat) (ha : a < 256) : ∀ x ∈ List.replicate n a, x < 256 := by
  intro x hx
  rw [List.eq_of_mem_replicate hx]
  exact ha

/-- C11 at a failing input: on a freshly loaded buffer of 2147483649 zero
bytes, `revise(2147483648, 0xCD)` passes its assertion and overwrites the
stored length: the length is `CD` (205) afterwards, and the value recorded as
overwritten is 1, the low byte of the old length.  The second call,
`revise(2147483648, 1)`, then fails the assertion of `Editor::revise`, and
`Buffer::revise` through the same lookup writes the head again: the length
becomes 1, it is not restored. -/
theorem Editor.revise_twice_above_s32 :
    (Editor.over 2147483649 (List.replicate 2147483649 0)).buffer.length = 2147483649 ∧
    ∃ e1, (Editor.over 2147483649 (List.replicate 2147483649 0)).revise 2147483648 0xCD =
        .ok e1 ∧
      e1.undoStack = [⟨.REVISE, 2147483648, 1, 0xCD⟩] ∧ e1.buffer.length = 0xCD ∧
      e1.revise 2147483648 1 = .assertFailed e1 ∧
      ∃ b2, e1.buffer.revise (e1.buffer.data.nth (s32 2147483648)) 1 = some (0xCD, b2) ∧
        b2.length = 1 := by
  obtain ⟨e1, h1, _, h3, h4⟩ :=
    Editor.revise_at_head (Editor.over 2147483649 (List.replicate 2147483649 0)) 2147483648 0xCD
      (by rw [Editor.over_length]; decide) (by unfold s32; omega)
  have hneg : s32 (2147483648 : Int) < 0 := by
    unfold s32
    omega
  have hstack : e1.undoStack = [⟨.REVISE, 2147483648, 1, 0xCD⟩] := by
    rw [h4, Editor.over_length]
    rfl
  have hb2 : e1.buffer.revise (e1.buffer.data.nth (s32 2147483648)) 1 =
      some (0xCD, Buffer.mk (Node.ofList (1 % 256) e1.buffer.contents)) := by
    rw [Buffer.nth_eq, ptrL_neg _ _ hneg, Buffer.revise_some_zero, h3]
    rfl
  exact ⟨Editor.over_length _ _, e1, h1, hstack, h3,
    Editor.revise_assert e1 _ _ (by rw [h3]; decide), _, hb2, Buffer.length_ofList _ _⟩

/-- C12 at two failing inputs.  `Buffer::Buffer` on the one byte `10` leaves the
link of its last node unassigned: when the memory it got holds the address of
a node, the stored length is 1 and two nodes hang off the head.  And on a
freshly loaded buffer of 2147483649 zero bytes `revise(2147483648, 5)` returns
with the stored length 5 and 2147483649 element nodes. -/
theorem Buffer.length_not_count :
    (∃ b, Buffer.create [0x10] 1 (some (Node.mk 0x41 none)) = some b ∧ b.length = 1 ∧
      b.contents.length = 2) ∧
    (∃ e', (Editor.over 2147483649 (List.replicate 2147483649 0)).revise 2147483648 5 = .ok e' ∧
      e'.buffer.length = 5 ∧ e'.buffer.contents.length = 2147483649) := by
  refine ⟨⟨_, rfl, rfl, rfl⟩, ?_⟩
  obtain ⟨e', h1, h2, h3, _⟩ :=
    Editor.revise_at_head (Editor.over 2147483649 (List.replicate 2147483649 0)) 2147483648 5
      (by rw [Editor.over_length]; decide) (by unfold s32; omega)
  refine ⟨e', h1, h3, ?_⟩
  rw [h2, Editor.over_contents, List.length_replicate]

/-- C13 at a failing input: `Editor::Editor` on a file of the two bytes `10 20`.
The link of the last node is never assigned; when the memory it got holds the
address of a node (here one with the value `41`), the buffer has three
elements and `save` writes three bytes. -/
theorem Editor.create_unterminated :
    ∃ e, Editor.create "" [0x10, 0x20] (some (Node.mk 0x41 none)) = some e ∧
      e.buffer.length = 2 ∧ e.buffer.contents = [0x10, 0x20, 0x41] ∧
      e.save = [0x10, 0x20, 0x41] :=
  ⟨_, rfl, rfl, rfl, rfl⟩

/-- C16 at a failing input: on a freshly loaded buffer of 2147483649 bytes `AB`,
`revise(2147483648, 0xCD)` passes its assertion and records the command
`{REVISE, 2147483648, oldValue = 1, newValue = 0xCD}`: 1 is the low byte of
the stored length, while the byte at index 2147483648 is `AB`. -/
theorem Editor.revise_records_length_byte :
    (Editor.over 2147483649 (List.replicate 2147483649 0xAB)).Reachable ∧
    (List.replicate 2147483649 0xAB)[2147483648]? = some 0xAB ∧
    ∃ e', (Editor.over 2147483649 (List.replicate 2147483649 0xAB)).revise 2147483648 0xCD =
        .ok e' ∧
      e'.undoStack = [⟨.REVISE, 2147483648, 1, 0xCD⟩] := by
  obtain ⟨e', h1, _, _, h4⟩ :=
    Editor.revise_at_head (Editor.over 2147483649 (List.replicate 2147483649 0xAB)) 2147483648
      0xCD (by rw [Editor.over_length]; decide) (by unfold s32; omega)
  refine ⟨Editor.over_reachable _ _ (List.replicate_bytes _ _ (by decide))
    (List.length_replicate _ _).symm (by decide), ?_, e', h1, ?_⟩
  · rw [List.getElem?_replicate, if_pos (by decide)]
  · rw [h4, Editor.over_length]
    rfl

/-! ## The keyboard -/

/-- C19 at the failing key.  From the loaded scenario the keys right, right,
enter, right lead into edit mode with the cursor on byte 0 (`10`).  The key
`a` (97) then calls nothing: the contents and the empty undo stack are as
before, where the claim has `revise(0, 0x0A)`.  The key `b` (98) calls
`revise(0, 0x0B)`. -/
theorem Editor.key_a_ignored :
    ∃ e ea eb,
      Editor.handleEvent [.KEY_RIGHT, .KEY_RIGHT, .char 10, .KEY_RIGHT] Editor.scenarioStart =
        .ok e ∧
      e.cursor.mainWinFixed = true ∧ e.cursor.editPos = 0 ∧
      e.handleMainWinEvent (.char 97) = .ok ea ∧ ea.cursor.value = 0x10 ∧
      ea.buffer.contents = [0x10, 0x20, 0x30] ∧ ea.undoStack = [] ∧
      e.handleMainWinEvent (.char 98) = .ok eb ∧
      eb.buffer.contents = [0x0B, 0x20, 0x30] ∧ eb.undoStack = [⟨.REVISE, 0, 0x10, 0x0B⟩] :=
  ⟨_, _, _, rfl, rfl, rfl, rfl, rfl, rfl, rfl, rfl, rfl, rfl⟩

/-- C20 at two failing inputs, on the editor loaded with `10 20 30`.  The keys
right, right, enter open edit mode with `editPos` still -1, and the key space
calls `insert(4294967295, 0)`, which fails its assertion.  And after the keys
right, right, enter, down (a zero byte is appended at index 3), enter, left,
left, enter (`undo()` takes the byte away again), right, right, enter, the
key `0` calls `revise(3, ..)` on a buffer of length 3, which fails its
assertion. -/
theorem Editor.keys_trip_assertion :
    Editor.create "" [0x10, 0x20, 0x30] none = some Editor.scenarioStart ∧
    (∃ e, Editor.handleEvent [.KEY_RIGHT, .KEY_RIGHT, .char 10, .char 32] Editor.scenarioStart =
        .assertFailed e ∧
      e.cursor.editPos = -1 ∧ u32OfS32 e.cursor.editPos = 4294967295 ∧ e.buffer.length = 3) ∧
    (∃ e, Editor.handleEvent
        [.KEY_RIGHT, .KEY_RIGHT, .char 10, .KEY_DOWN, .char 10, .KEY_LEFT, .KEY_LEFT, .char 10,
          .KEY_RIGHT, .KEY_RIGHT, .char 10, .char 48] Editor.scenarioStart = .assertFailed e ∧
      e.cursor.editPos = 3 ∧ e.buffer.length = 3) :=
  ⟨rfl, ⟨_, rfl, rfl, rfl, rfl⟩, ⟨_, rfl, rfl, rfl⟩⟩
